import Mathlib

/-!
# Verification of the Hasse diagram generator core

Shallow embedding of the algorithmic core of
`src/components/hasse-diagram-generator.tsx`:

* `computeTransitiveClosure` (source lines 192-226): Floyd-Warshall style
  transitive closure producing a JS `Set<string>` of `"a,b"` keys.
* `computeHasseDiagram` (lines 229-297): transitive reduction of the input
  relation list followed by memoized depth-first level assignment.
* `computeLayout` (lines 300-350): hierarchical / circular coordinate
  assignment.
* `parseInput` (lines 76-128) and `generateDivisibilityPoset` (lines
  131-189): the poset builders.

Modelling conventions:
* JS strings are `String`, arrays are `List`, insertion-ordered JS `Set`s
  are duplicate-free `List`s grown by append.
* JS numbers holding levels are `Option Nat`: `some n` is an ordinary
  non-negative number, `none` models the `NaN`/`undefined` poisoning that
  the memoized recursion produces on cyclic covering graphs
  (`undefined + 1 = NaN`, `Math.max(_, NaN) = NaN`).
* The adjacency record `adj : Record<string, Set<string>>` is an
  association list read through `adjGet` (absent key reads as the empty
  set).  In JS, `adj[a].add(b)` throws when `a` was never initialised
  (i.e. `a` is not in the element list); the model silently records such
  edges instead, but they are never read back: the Floyd-Warshall loops
  and the closure extraction only consult keys from the element list.
* The memoized recursion of `computeLevel` is embedded with an explicit
  `fuel` argument bounding the recursion depth; `levelFuel` is shown to
  be a sufficient budget, which is exactly the termination argument of
  the JS code (elements are marked visited before descending).
-/

set_option maxHeartbeats 1000000
set_option maxRecDepth 100000

/-- The poset structure handed to the core: an element list and a list of
ordered relation pairs `(a, b)` meaning `a < b`. -/
structure PosetData where
  elements : List String
  relations : List (String × String)
deriving DecidableEq, Repr

/-- The adjacency record `Record<string, Set<string>>`: an association
list from element to its insertion-ordered successor set. -/
abbrev Adj : Type := List (String × List String)

/-- Reading `adj[x]`: the set stored at the first entry for `x`; an
absent key reads as the empty set. -/
def adjGet (adj : Adj) (x : String) : List String :=
  ((adj.find? fun p => p.1 == x).map Prod.snd).getD []

/-- Writing `adj[x] = v`: replace the first entry for `x`, or append a
fresh entry when the key is absent. -/
def adjUpdate : Adj → String → List String → Adj
  | [], x, v => [(x, v)]
  | p :: rest, x, v => if p.1 = x then (x, v) :: rest else p :: adjUpdate rest x v

/-- `adj[a].add(b)` on the insertion-ordered set record: append `b` to
`adj[a]` unless already present. -/
def addEdge (adj : Adj) (a b : String) : Adj :=
  adjUpdate adj a (if b ∈ adjGet adj a then adjGet adj a else adjGet adj a ++ [b])

/-- Initialising the record (`adj[element] = new Set()` for every
element) and filling it with the direct relations (source
lines 196-204). -/
def initAdj (poset : PosetData) : Adj :=
  poset.relations.foldl (fun adj ab => addEdge adj ab.1 ab.2)
    (poset.elements.foldl (fun adj e => adjUpdate adj e []) [])

/-- The Floyd-Warshall triple loop (source lines 206-215): for every
`k`, `i`, `j` drawn from the element list in order, add `i → j` whenever
`i → k` and `k → j` currently hold. -/
def fwAdj (poset : PosetData) : Adj :=
  poset.elements.foldl (fun adj k =>
    poset.elements.foldl (fun adj i =>
      poset.elements.foldl (fun adj j =>
        if k ∈ adjGet adj i ∧ j ∈ adjGet adj k then addEdge adj i j else adj) adj) adj)
    (initAdj poset)

/-- The string key `"a,b"` used by the closure set (source line 221). -/
def key (a b : String) : String := a ++ "," ++ b

/-- `closure.add(s)` on the insertion-ordered JS `Set<string>`. -/
def addKey (acc : List String) (s : String) : List String :=
  if s ∈ acc then acc else acc ++ [s]

/-- `computeTransitiveClosure` (source lines 192-226): runs Floyd-Warshall
and extracts the set of `"i,j"` keys, iterating `i` over the element list
and `j` over `adj[i]` in insertion order. -/
def computeTransitiveClosure (poset : PosetData) : List String :=
  poset.elements.foldl (fun acc i =>
    (adjGet (fwAdj poset) i).foldl (fun acc j => addKey acc (key i j)) acc) []

/-- The covering-edge filter of `computeHasseDiagram` (source lines
236-253), abstracted over the closure set it consults: an input relation
`(a, b)` is kept unless some third element `c` (distinct from both) has
`"a,c"` and `"c,b"` in the closure. -/
def directRelationsWith (elements : List String) (relations : List (String × String))
    (closure : List String) : List (String × String) :=
  relations.filter fun ab =>
    ! elements.any fun c =>
      decide (c ≠ ab.1 ∧ c ≠ ab.2 ∧ key ab.1 c ∈ closure ∧ key c ab.2 ∈ closure)

/-- The retained covering edges of a poset: the filter applied to the
transitive closure computed from the same poset, exactly as
`computeHasseDiagram` does. -/
def directRelations (poset : PosetData) : List (String × String) :=
  directRelationsWith poset.elements poset.relations (computeTransitiveClosure poset)

/-- The mutable state of the level computation: the `visited` set and the
`levels` record, an association list with the most recent binding first. -/
structure LState where
  visited : List String
  levels : List (String × Option Nat)
deriving DecidableEq, Repr

/-- `levels[e]` as an optional read: `none` models JS `undefined`. -/
def lookupTbl (tbl : List (String × Option Nat)) (e : String) : Option (Option Nat) :=
  (tbl.find? fun p => p.1 == e).map Prod.snd

/-- `level + 1` under NaN-poisoning. -/
def optSucc : Option Nat → Option Nat
  | none => none
  | some n => some (n + 1)

/-- `Math.max` under NaN-poisoning: `NaN` absorbs. -/
def optMax : Option Nat → Option Nat → Option Nat
  | some a, some b => some (Nat.max a b)
  | _, _ => none

mutual

/-- The memoized recursion `computeLevel` (source lines 260-275), with an
explicit recursion-depth budget `fuel`; `none` means the budget ran out
(shown impossible for `levelFuel` below).  A visited element returns its
recorded level (`undefined`, i.e. `none` inside the result, if it is still
on the call stack); otherwise the element is marked visited, the loop over
`dr` folds `Math.max(maxLevel, computeLevel(a) + 1)` over the matching
edges `(a, element)`, and the result is recorded. -/
def computeLevelF (fuel : Nat) (dr : List (String × String)) (element : String)
    (st : LState) : Option (Option Nat × LState) :=
  match fuel with
  | 0 => none
  | fuel + 1 =>
    if element ∈ st.visited then
      some ((lookupTbl st.levels element).getD none, st)
    else
      match levelLoopF fuel dr dr element ⟨element :: st.visited, st.levels⟩ (some 0) with
      | none => none
      | some (m, st2) => some (m, ⟨st2.visited, (element, m) :: st2.levels⟩)

/-- The `for (const [a, b] of directRelations)` loop inside
`computeLevel` (source lines 266-271), folding the running `maxLevel`. -/
def levelLoopF (fuel : Nat) (dr rels : List (String × String)) (element : String)
    (st : LState) (acc : Option Nat) : Option (Option Nat × LState) :=
  match fuel with
  | 0 => none
  | fuel + 1 =>
    match rels with
    | [] => some (acc, st)
    | ab :: rest =>
      if ab.2 = element then
        match computeLevelF fuel dr ab.1 st with
        | none => none
        | some (lv, st2) => levelLoopF fuel dr rest element st2 (optMax acc (optSucc lv))
      else levelLoopF fuel dr rest element st acc

end

/-- A recursion-depth budget sufficient for `computeLevelF` (proved in
`computeLevelF_isSome`). -/
def levelFuel (dr : List (String × String)) (elements : List String) : Nat :=
  (elements.length + dr.length + 1) * (dr.length + 2)

/-- The driver loop `for (const element of elements) if (!visited.has(element))
computeLevel(element)` (source lines 278-282), threading the state. -/
def runLevelsF (dr : List (String × String)) (elements : List String) : Option LState :=
  elements.foldlM (fun st e =>
    if e ∈ st.visited then some st
    else (computeLevelF (levelFuel dr elements) dr e st).map Prod.snd)
    ⟨[], []⟩

/-- A diagram node: element id, computed level (`none` models the NaN a
cyclic covering graph produces) and optional layout coordinates. -/
structure Node where
  id : String
  level : Option Nat
  x : Option Real := none
  y : Option Real := none

/-- A covering edge of the diagram. -/
structure Edge where
  source : String
  target : String
deriving DecidableEq, Repr

/-- The output diagram. -/
structure DiagramData where
  nodes : List Node
  edges : List Edge

/-- `computeHasseDiagram` (source lines 229-297): closure, covering-edge
filter, level assignment, then one node per element and one edge per
retained relation.  `none` only if the level recursion budget ran out
(shown impossible in `computeHasseDiagram_isSome`). -/
def computeHasseDiagram (poset : PosetData) : Option DiagramData :=
  let dr := directRelations poset
  (runLevelsF dr poset.elements).map fun st =>
    { nodes := poset.elements.map fun id =>
        { id := id, level := (lookupTbl st.levels id).getD none }
      edges := dr.map fun ab => { source := ab.1, target := ab.2 } }

/-! ## Layout engine (source lines 300-350)

Coordinates are modelled as exact real numbers standing for the JS
floating-point values. -/

/-- `Math.max(...nodes.map(n => n.level))` as a loop bound: `none` stands
for `-Infinity` (no nodes) or `NaN` (some node level is `NaN`); in both
cases the JS loop `for (level = 0; level <= maxLevel; level++)` runs zero
iterations. -/
def maxLevelOpt (nodes : List Node) : Option Nat :=
  if nodes.isEmpty then none
  else if nodes.all (fun n => n.level.isSome) then
    some ((nodes.filterMap (fun n => n.level)).foldl Nat.max 0)
  else none

/-- The coordinate patch
`newNodes[newNodes.findIndex(n => n.id === node.id)] = {..., x, y}`
(source lines 321-328 and 338-345): overwrite the coordinates of the
first node carrying the given id, if any. -/
def updateNode : List Node → String → Real → Real → List Node
  | [], _, _, _ => []
  | n :: rest, nid, px, py =>
    if n.id = nid then { n with x := some px, y := some py } :: rest
    else n :: updateNode rest nid px py

/-- The `levelNodes.forEach((node, i) => ...)` loop of the hierarchical
layout (source lines 320-329): node `i` of the level gets
`x = startX + i * 100`, `y = level * levelHeight`. -/
noncomputable def placeLevel (levelHeight : Real) (level : Nat) (startX : Real) :
    Nat → List Node → List Node → List Node
  | _, [], acc => acc
  | i, n :: rest, acc =>
    placeLevel levelHeight level startX (i + 1) rest
      (updateNode acc n.id (startX + i * 100) (level * levelHeight))

/-- The hierarchical branch of `computeLayout` (source lines 314-330):
group nodes by level, and place each level's nodes left-to-right at pitch
100 centred around `x = 0` (`startX = -levelWidth / 2 + 50`). -/
noncomputable def layoutHier (levelHeight : Real) (nodes : List Node) : List Node :=
  match maxLevelOpt nodes with
  | none => nodes
  | some maxLevel =>
    (List.range (maxLevel + 1)).foldl (fun acc level =>
      let levelNodes := nodes.filter fun n => n.level == some level
      placeLevel levelHeight level (-(levelNodes.length * 100 : Real) / 2 + 50) 0
        levelNodes acc) nodes

/-- The `nodes.forEach((node, i) => ...)` loop of the circular layout
(source lines 336-346): node `i` gets `x = r * cos(i * angleStep)`,
`y = r * sin(i * angleStep)`. -/
noncomputable def placeCirc (radius angleStep : Real) :
    Nat → List Node → List Node → List Node
  | _, [], acc => acc
  | i, n :: rest, acc =>
    placeCirc radius angleStep (i + 1) rest
      (updateNode acc n.id (radius * Real.cos (i * angleStep))
        (radius * Real.sin (i * angleStep)))

/-- The circular branch of `computeLayout` (source lines 331-347):
radius `max(nodes.length * 20, 150)`, angle step `2π / nodes.length`. -/
noncomputable def layoutCirc (nodes : List Node) : List Node :=
  placeCirc (max ((nodes.length : Real) * 20) 150) (2 * Real.pi / (nodes.length : Real))
    0 nodes nodes

/-- `computeLayout` (source lines 300-350), with the component state
`layoutType` and `levelHeight` passed explicitly.  An unrecognised layout
type leaves the copied node list untouched, as in the source. -/
noncomputable def computeLayout (layoutType : String) (levelHeight : Real)
    (diagram : DiagramData) : DiagramData :=
  if layoutType = "hierarchical" then
    { nodes := layoutHier levelHeight diagram.nodes, edges := diagram.edges }
  else if layoutType = "circular" then
    { nodes := layoutCirc diagram.nodes, edges := diagram.edges }
  else
    { nodes := diagram.nodes, edges := diagram.edges }

/-! ## Poset builders (source lines 76-128 and 131-189)

The two regex patterns `/^(.+?)\s*<\s*(.+)$/` and `/^(.+?)\s*,\s*(.+)$/`
are embedded by `lazyMatch`: the lazy group `(.+?)` takes the shortest
non-empty prefix after which an optional whitespace run, the separator,
and a non-empty remainder follow; the final greedy `\s*(.+)$` drops
leading whitespace from the remainder unless it is all whitespace, in
which case backtracking leaves exactly the last character.  `\s` is
modelled by `Char.isWhitespace` (JS also accepts some exotic Unicode
spaces; no claim depends on those). -/

/-- The character class `\s`. -/
def isJsSpace (c : Char) : Bool := c.isWhitespace

/-- `String.prototype.split` with a single-character separator, on the
character list. -/
def splitChars (sep : Char) : List Char → List (List Char)
  | [] => [[]]
  | c :: rest =>
    match splitChars sep rest with
    | [] => [[c]]
    | g :: gs => if c = sep then [] :: g :: gs else (c :: g) :: gs

/-- `s.split(sep)` for a single-character separator. -/
def jsSplit (sep : Char) (s : String) : List String :=
  (splitChars sep s.data).map String.mk

/-- `s.trim()`: strip whitespace from both ends. -/
def jsTrim (s : String) : String :=
  String.mk (((s.data.dropWhile isJsSpace).reverse.dropWhile isJsSpace).reverse)

/-- Comma-split, trimmed, non-empty tokens of a text field (used by both
builders). -/
def tokensOf (s : String) : List String :=
  ((jsSplit ',' s).map jsTrim).filter fun e => e.length > 0

/-- The second capture group `\s*(.+)$` applied to the text after the
separator (with the greedy/backtracking behaviour described above). -/
def groupTwo (tail : List Char) : List Char :=
  match tail.dropWhile isJsSpace with
  | [] => tail.drop (tail.length - 1)
  | r => r

/-- Core loop of `lazyMatch`: grow the lazy first group one character at
a time; at each split, match succeeds if an optional whitespace run, the
separator and a non-empty remainder follow. -/
def lazyMatchCore (sep : Char) : List Char → List Char → Option (List Char × List Char)
  | _, [] => none
  | pre, c :: rest =>
    match rest.dropWhile isJsSpace with
    | d :: tail =>
      if d = sep ∧ tail ≠ [] then some (pre ++ [c], groupTwo tail)
      else lazyMatchCore sep (pre ++ [c]) rest
    | [] => lazyMatchCore sep (pre ++ [c]) rest

/-- `line.match(/^(.+?)\s*SEP\s*(.+)$/)`, returning the two capture
groups. -/
def lazyMatch (sep : Char) (s : String) : Option (String × String) :=
  (lazyMatchCore sep [] s.data).map fun p => (String.mk p.1, String.mk p.2)

/-- The validation failures of `parseInput`, tagged by kind; the source
reports them as the messages "Please enter at least one element",
`Relation "..." contains elements not in the element list` and
`Invalid relation format: "..."`. -/
inductive ParseError where
  | emptyInput : ParseError
  | unknownElement (line : String) : ParseError
  | invalidFormat (line : String) : ParseError
deriving DecidableEq, Repr

/-- The relation-line loop of `parseInput` (source lines 93-117): blank
lines are skipped; each other line must match the `A < B` pattern or,
failing that, the `A,B` pattern; both trimmed endpoints must be declared
elements. -/
def parseRelLines (elems : List String) : List String → Except ParseError (List (String × String))
  | [] => .ok []
  | line :: rest =>
    let t := jsTrim line
    if t.length = 0 then parseRelLines elems rest
    else
      match lazyMatch '<' t with
      | some (a, b) =>
        if jsTrim a ∈ elems ∧ jsTrim b ∈ elems then
          (parseRelLines elems rest).map fun rs => (jsTrim a, jsTrim b) :: rs
        else .error (.unknownElement t)
      | none =>
        match lazyMatch ',' t with
        | some (a, b) =>
          if jsTrim a ∈ elems ∧ jsTrim b ∈ elems then
            (parseRelLines elems rest).map fun rs => (jsTrim a, jsTrim b) :: rs
          else .error (.unknownElement t)
        | none => .error (.invalidFormat t)

/-- `parseInput` (source lines 76-128), with the two text fields passed
explicitly: split the element field on commas (trimming, dropping empty
tokens), then parse the relation lines. -/
def parseInput (elements relations : String) : Except ParseError PosetData :=
  let parsedElements := tokensOf elements
  if parsedElements.length = 0 then .error .emptyInput
  else (parseRelLines parsedElements (jsSplit '\n' relations)).map
    fun rs => { elements := parsedElements, relations := rs }

/-! ### `Number.parseInt` and the divisibility generator

`jsParseInt` models `Number.parseInt(s)` (radix auto-detection): skip
leading whitespace, read an optional sign, then either a `0x`/`0X`
prefixed hexadecimal digit run or a decimal digit run, taking the longest
such prefix and ignoring anything after it; no digits means `NaN`
(`none`).  Values are ideal integers (JS loses precision above `2^53`;
no claim involves such inputs). -/

/-- Hexadecimal digit test. -/
def isHexDigit (c : Char) : Bool :=
  c.isDigit || ('a' ≤ c && c ≤ 'f') || ('A' ≤ c && c ≤ 'F')

/-- Hexadecimal digit value. -/
def hexVal (c : Char) : Nat :=
  if c.isDigit then c.toNat - 48
  else if 'a' ≤ c ∧ c ≤ 'f' then c.toNat - 97 + 10
  else c.toNat - 65 + 10

/-- Longest decimal-digit prefix, or `none` if there is none. -/
def decVal (cs : List Char) : Option Nat :=
  let ds := cs.takeWhile Char.isDigit
  if ds.isEmpty then none
  else some (ds.foldl (fun acc c => 10 * acc + (c.toNat - 48)) 0)

/-- Digit-run parsing with `0x` radix detection. -/
def jsParseIntDigits (cs : List Char) : Option Nat :=
  match cs with
  | '0' :: c :: rest =>
    if c = 'x' ∨ c = 'X' then
      let ds := rest.takeWhile isHexDigit
      if ds.isEmpty then none
      else some (ds.foldl (fun acc c => 16 * acc + hexVal c) 0)
    else decVal cs
  | _ => decVal cs

/-- `Number.parseInt(s)` (see the section comment). -/
def jsParseInt (s : String) : Option Int :=
  match s.data.dropWhile isJsSpace with
  | '-' :: rest => (jsParseIntDigits rest).map fun n => -(n : Int)
  | '+' :: rest => (jsParseIntDigits rest).map fun n => (n : Int)
  | cs => (jsParseIntDigits cs).map fun n => (n : Int)

/-- The validation failures of `generateDivisibilityPoset`; the source
reports them as `Invalid number: ... Only positive integers are allowed.`
and "Please enter at least one positive integer". -/
inductive DivError where
  | invalidNumber (token : String) : DivError
  | emptyNumbers : DivError
deriving DecidableEq, Repr

/-- Parsing and validation of a single token: `Number.parseInt`, reject
`NaN` and non-positive values, normalise to `parsed.toString()`. -/
def parseTok (n : String) : Except DivError String :=
  match jsParseInt n with
  | none => Except.error (DivError.invalidNumber n)
  | some v =>
    if v ≤ 0 then Except.error (DivError.invalidNumber n)
    else Except.ok (toString v)

/-- `generateDivisibilityPoset` (source lines 131-189), up to the point
where the poset is handed to `computeHasseDiagram`: split on commas,
trim, drop empty tokens, parse each token with `Number.parseInt`
(rejecting `NaN` and values `<= 0`) and normalise it to
`parsed.toString()`; then relate every pair of distinct *indices* `i ≠ j`
with `numbers[j] % numbers[i] === 0` (the source re-parses the normalised
strings inside the loop, modelled by `(jsParseInt _).getD 0`, which never
falls back to the default on the canonical decimal strings produced by
normalisation). -/
def generateDivisibilityPoset (numbersText : String) : Except DivError PosetData :=
  match (tokensOf numbersText).mapM parseTok with
  | Except.error e => Except.error e
  | Except.ok numbers =>
    if numbers.length = 0 then Except.error DivError.emptyNumbers
    else
      Except.ok
        { elements := numbers
          relations :=
            (List.range numbers.length).foldl (fun rels i =>
              (List.range numbers.length).foldl (fun rels j =>
                if i ≠ j then
                  let a := (jsParseInt (numbers.getD i "")).getD 0
                  let b := (jsParseInt (numbers.getD j "")).getD 0
                  if b % a = 0 then rels ++ [(numbers.getD i "", numbers.getD j "")]
                  else rels
                else rels) rels) [] }

/-! ## Auxiliary definitions used by the verification

`fwStepJ`, `fwStepI` and `fwStepK` name the three nested loop bodies of
`fwAdj` (the definitions are eta-equal to the inline lambdas). -/

/-- Body of the innermost (`j`) Floyd-Warshall loop. -/
def fwStepJ (k i : String) (adj : Adj) (j : String) : Adj :=
  if k ∈ adjGet adj i ∧ j ∈ adjGet adj k then addEdge adj i j else adj

/-- Body of the middle (`i`) Floyd-Warshall loop. -/
def fwStepI (E : List String) (k : String) (adj : Adj) (i : String) : Adj :=
  E.foldl (fwStepJ k i) adj

/-- Body of the outer (`k`) Floyd-Warshall loop. -/
def fwStepK (E : List String) (adj : Adj) (k : String) : Adj :=
  E.foldl (fwStepI E k) adj

/-- Non-empty paths along `step` whose *intermediate* vertices all
satisfy `mid` (the endpoints are unconstrained). -/
inductive PathVia (step : String → String → Prop) (mid : String → Prop) :
    String → String → Prop
  | single {a b : String} : step a b → PathVia step mid a b
  | cons {a k b : String} : step a k → mid k → PathVia step mid k b → PathVia step mid a b

/-- The direct-relation step of a poset. -/
def relOf (poset : PosetData) (a b : String) : Prop := (a, b) ∈ poset.relations

/-- Soundness invariant of the Floyd-Warshall state: every recorded pair
is connected by a path through the element list. -/
def FwSound (poset : PosetData) (adj : Adj) : Prop :=
  ∀ i j, j ∈ adjGet adj i →
    PathVia (relOf poset) (fun v => v ∈ poset.elements) i j

/-- Completeness invariant of the Floyd-Warshall state, relative to the
set `S` of already-processed midpoints. -/
def FwComp (poset : PosetData) (S : String → Prop) (adj : Adj) : Prop :=
  ∀ i j, i ∈ poset.elements → j ∈ poset.elements →
    PathVia (relOf poset) S i j → j ∈ adjGet adj i

/-- Range invariant of the Floyd-Warshall state: recorded targets come
from the input relations or the element list. -/
def FwRange (poset : PosetData) (adj : Adj) : Prop :=
  ∀ i j, j ∈ adjGet adj i → (i, j) ∈ poset.relations ∨ j ∈ poset.elements

/-- `s` contains no comma character (true of every element either poset
builder can produce). -/
def noComma (s : String) : Prop := ',' ∉ s.data

instance (s : String) : Decidable (noComma s) :=
  inferInstanceAs (Decidable (',' ∉ s.data))

/-! Definitions for the level-computation invariant. -/

/-- The keys bound in a level table. -/
def tblDom (tbl : List (String × Option Nat)) : List String := tbl.map Prod.fst

/-- An element that is on the call stack of the memoized recursion:
marked visited but without a recorded level yet. -/
def InProg (st : LState) (e : String) : Prop :=
  e ∈ st.visited ∧ e ∉ tblDom st.levels

/-- Table extension: every recorded binding keeps its value. -/
def TblExt (tbl tbl' : List (String × Option Nat)) : Prop :=
  ∀ e v, lookupTbl tbl e = some v → lookupTbl tbl' e = some v

/-- What the `for (const [a,b] of dr)` fold computes for `e` once all
recursive calls are memoized: the NaN-aware maximum of
`levels[a] + 1` over the matching edges `(a, e)`, starting from `0`. -/
def recompute (dr : List (String × String)) (tbl : List (String × Option Nat))
    (e : String) : Option Nat :=
  dr.foldl (fun acc ab =>
    if ab.2 = e then optMax acc (optSucc ((lookupTbl tbl ab.1).getD none)) else acc)
    (some 0)

/-- The state invariant of the memoized level computation: recorded
elements are visited, every recorded value is the (non-NaN) recomputation
from the table itself, and the predecessors of a recorded element are
recorded. -/
def TblInv (dr : List (String × String)) (st : LState) : Prop :=
  (∀ e, e ∈ tblDom st.levels → e ∈ st.visited) ∧
  (∀ e v, lookupTbl st.levels e = some v → v = recompute dr st.levels e ∧ v.isSome) ∧
  (∀ e, e ∈ tblDom st.levels → ∀ ab ∈ dr, ab.2 = e → ab.1 ∈ tblDom st.levels)

/-- The sources of covering edges pointing at `e`. -/
def predsOf (dr : List (String × String)) (e : String) : List String :=
  dr.filterMap fun ab => if ab.2 = e then some ab.1 else none

/-- The level of element `e` in a diagram: the level of the first node
carrying id `e` (`none` also when there is no such node). -/
def dlevel (d : DiagramData) (e : String) : Option Nat :=
  ((d.nodes.find? fun n => n.id == e).map Node.level).getD none

/-! Spec-side layout formulas (following the wording of the spec, to be
compared with the code's `computeLayout`). -/

/-- The index at which a node id first occurs in a node list (the
`findIndex(n => n.id === node.id)` idiom). -/
def idxOf? (nid : String) : List Node → Option Nat
  | [] => none
  | n :: rest => if n.id = nid then some 0 else (idxOf? nid rest).map (· + 1)

/-- Spec formula for hierarchical placement: for the level containing
`n`, with `g` nodes, the `i`-th node (0-indexed, `i` located by id) gets
`x = -50·g + 50 + 100·i` and `y = level · levelHeight`. -/
noncomputable def hierSpecNode (levelHeight : Real) (nodes : List Node) (n : Node) : Node :=
  let grp := nodes.filter fun m => m.level == n.level
  let i := (idxOf? n.id grp).getD 0
  { n with
    x := some (-50 * (grp.length : Real) + 50 + 100 * (i : Real))
    y := some (((n.level.getD 0 : Nat) : Real) * levelHeight) }

/-- Spec formula for circular placement: node `i` (in original order,
`i` located by id) goes on the circle of radius
`max(20·nodeCount, 150)` at angle `i · (2π / nodeCount)`. -/
noncomputable def circSpecNode (nodes : List Node) (n : Node) : Node :=
  let r : Real := max ((nodes.length : Real) * 20) 150
  let i := (idxOf? n.id nodes).getD 0
  { n with
    x := some (r * Real.cos ((i : Real) * (2 * Real.pi / (nodes.length : Real))))
    y := some (r * Real.sin ((i : Real) * (2 * Real.pi / (nodes.length : Real)))) }

/-- Common shape of the two placement loops: walk `todo` with a running
index, patching the accumulator node carrying each visited id with
index-determined coordinates. -/
def placeGen (fx fy : Nat → Real) : Nat → List Node → List Node → List Node
  | _, [], acc => acc
  | i, n :: rest, acc => placeGen fx fy (i + 1) rest (updateNode acc n.id (fx i) (fy i))

/-- The net effect of one hierarchical level on a single node: if its id
occurs in the level's group, overwrite its coordinates with the group
formula, else leave it alone. -/
noncomputable def patchHier (levelHeight : Real) (nodes : List Node) (level : Nat)
    (m : Node) : Node :=
  match idxOf? m.id (nodes.filter fun n => n.level == some level) with
  | some k =>
    { m with
      x := some (-((nodes.filter fun n => n.level == some level).length * 100 : Real) / 2 + 50
        + (k : Real) * 100)
      y := some ((level : Real) * levelHeight) }
  | none => m

/-- The net effect of a sequence of hierarchical levels on one node. -/
noncomputable def applyHier (levelHeight : Real) (nodes : List Node) (lvls : List Nat)
    (m : Node) : Node :=
  lvls.foldl (fun m' level => patchHier levelHeight nodes level m') m

/-! Characterisation helpers for the builders. -/

/-- The relation pair a line parses to: the `A < B` pattern, or failing
that the `A,B` pattern. -/
def relPairOf (t : String) : Option (String × String) :=
  match lazyMatch '<' t with
  | some ab => some ab
  | none => lazyMatch ',' t

/-- A relation line acceptable to `parseInput` over the given element
list: blank, or parsing to a pair of declared elements. -/
def lineOkB (elems : List String) (line : String) : Bool :=
  if (jsTrim line).length = 0 then true
  else
    match relPairOf (jsTrim line) with
    | some ab => decide (jsTrim ab.1 ∈ elems) && decide (jsTrim ab.2 ∈ elems)
    | none => false

/-- A token `generateDivisibilityPoset` rejects: `parseInt` yields `NaN`
or a non-positive value. -/
def badTokB (t : String) : Bool :=
  match jsParseInt t with
  | none => true
  | some v => decide (v ≤ 0)

instance {ε α : Type} [DecidableEq ε] [DecidableEq α] : DecidableEq (Except ε α) := fun x y =>
  match x, y with
  | .error e, .error e' =>
    if h : e = e' then isTrue (by rw [h]) else isFalse fun hc => h (Except.error.inj hc)
  | .error _, .ok _ => isFalse fun hc => Except.noConfusion hc
  | .ok _, .error _ => isFalse fun hc => Except.noConfusion hc
  | .ok a, .ok a' =>
    if h : a = a' then isTrue (by rw [h]) else isFalse fun hc => h (Except.ok.inj hc)

/-! Concrete inputs used by witnesses and counterexamples. -/

/-- The three-element chain `a < b < c`. -/
def chainPoset : PosetData := ⟨["a", "b", "c"], [("a", "b"), ("b", "c")]⟩

/-- A well-formed poset whose element names contain a comma: the closure
keys `"x,x,x"` and `"x,y"` it produces are ambiguous. -/
def commaPoset : PosetData := ⟨["x", "x,x", "y"], [("x", "x,x"), ("x", "y")]⟩

/-- The diagram `computeHasseDiagram` produces for `chainPoset`. -/
def chainDiagram : DiagramData :=
  { nodes := [⟨"a", some 0, none, none⟩, ⟨"b", some 1, none, none⟩, ⟨"c", some 2, none, none⟩]
    edges := [⟨"a", "b"⟩, ⟨"b", "c"⟩] }

/-- The poset `generateDivisibilityPoset` builds for `1,2,3,4,6,12`. -/
def divPoset : PosetData :=
  ⟨["1", "2", "3", "4", "6", "12"],
    [("1", "2"), ("1", "3"), ("1", "4"), ("1", "6"), ("1", "12"), ("2", "4"),
      ("2", "6"), ("2", "12"), ("3", "6"), ("3", "12"), ("4", "12"), ("6", "12")]⟩

/-- The covering edges claimed for the divisibility example. -/
def divEdges : List Edge :=
  [⟨"1", "2"⟩, ⟨"1", "3"⟩, ⟨"2", "4"⟩, ⟨"2", "6"⟩, ⟨"3", "6"⟩, ⟨"4", "12"⟩, ⟨"6", "12"⟩]

/-- The adjacency record Floyd-Warshall reaches on `divPoset` (the input
relation is already transitively closed, so every outer iteration leaves
it unchanged). -/
def divAdj : Adj :=
  [("1", ["2", "3", "4", "6", "12"]), ("2", ["4", "6", "12"]), ("3", ["6", "12"]),
    ("4", ["12"]), ("6", ["12"]), ("12", [])]

/-- A four-node antichain diagram (all nodes on level 0, no edges),
used to witness the layout formulas: hierarchically its nodes sit at
`x = -150, -50, 50, 150`; circularly they sit on the radius-150 circle
at angles `0, π/2, π, 3π/2`. -/
def antichain4 : DiagramData :=
  { nodes := [⟨"a", some 0, none, none⟩, ⟨"b", some 0, none, none⟩,
      ⟨"c", some 0, none, none⟩, ⟨"d", some 0, none, none⟩]
    edges := [] }

/-! ## Lemmas about the adjacency record -/

theorem adjGet_nil (y : String) : adjGet [] y = [] := rfl

theorem adjGet_cons (p : String × List String) (rest : Adj) (y : String) :
    adjGet (p :: rest) y = if p.1 = y then p.2 else adjGet rest y := by
  by_cases h : p.1 = y <;> simp [adjGet, List.find?_cons, h]

theorem adjGet_adjUpdate (adj : Adj) (x : String) (v : List String) (y : String) :
    adjGet (adjUpdate adj x v) y = if y = x then v else adjGet adj y := by
  induction adj with
  | nil =>
    show adjGet [(x, v)] y = _
    rw [adjGet_cons]
    by_cases h : y = x
    · simp [h]
    · have hxy : ¬ x = y := fun hh => h hh.symm
      simp [h, hxy]
  | cons p rest ih =>
    by_cases hp : p.1 = x
    · have h1 : adjUpdate (p :: rest) x v = (x, v) :: rest := by
        simp [adjUpdate, hp]
      rw [h1, adjGet_cons, adjGet_cons]
      by_cases h : y = x
      · simp [h]
      · have hxy : ¬ x = y := fun hh => h hh.symm
        have hpy : ¬ p.1 = y := fun hh => h (hp.symm.trans hh).symm
        simp [h, hxy, hpy]
    · have h1 : adjUpdate (p :: rest) x v = p :: adjUpdate rest x v := by
        simp [adjUpdate, hp]
      rw [h1, adjGet_cons, ih, adjGet_cons]
      by_cases hpy : p.1 = y
      · have h : ¬ y = x := fun hh => hp (hpy.trans hh)
        simp [hpy, h]
      · simp [hpy]

theorem adjGet_addEdge (adj : Adj) (a b y : String) :
    adjGet (addEdge adj a b) y =
      if y = a then (if b ∈ adjGet adj a then adjGet adj a else adjGet adj a ++ [b])
      else adjGet adj y := by
  simp [addEdge, adjGet_adjUpdate]

theorem mem_adjGet_addEdge (adj : Adj) (a b y x : String) :
    x ∈ adjGet (addEdge adj a b) y ↔ x ∈ adjGet adj y ∨ (y = a ∧ x = b) := by
  rw [adjGet_addEdge]
  by_cases hy : y = a
  · rw [if_pos hy]
    subst hy
    by_cases hb : b ∈ adjGet adj y
    · rw [if_pos hb]
      constructor
      · exact fun h => Or.inl h
      · rintro (h | ⟨-, rfl⟩)
        · exact h
        · exact hb
    · rw [if_neg hb, List.mem_append, List.mem_singleton]
      constructor
      · rintro (h | rfl)
        · exact Or.inl h
        · exact Or.inr ⟨rfl, rfl⟩
      · rintro (h | ⟨-, rfl⟩)
        · exact Or.inl h
        · exact Or.inr rfl
  · rw [if_neg hy]
    constructor
    · exact fun h => Or.inl h
    · rintro (h | ⟨rfl, -⟩)
      · exact h
      · exact absurd rfl hy

/-! ## Generic fold lemmas -/

theorem foldl_grow {β : Type} {f : Adj → β → Adj}
    (hf : ∀ adj b i x, x ∈ adjGet adj i → x ∈ adjGet (f adj b) i) :
    ∀ (l : List β) (adj : Adj) (i x : String),
      x ∈ adjGet adj i → x ∈ adjGet (l.foldl f adj) i
  | [], _, _, _, h => h
  | b :: rest, adj, i, x, h => foldl_grow hf rest _ i x (hf adj b i x h)

theorem foldl_pres {β : Type} {P : Adj → Prop} {f : Adj → β → Adj} :
    ∀ (l : List β), (∀ adj b, b ∈ l → P adj → P (f adj b)) →
      ∀ adj, P adj → P (l.foldl f adj)
  | [], _, _, h => h
  | b :: rest, hf, adj, h =>
    foldl_pres rest (fun adj b' hb => hf adj b' (List.mem_cons_of_mem _ hb)) _
      (hf adj b (List.mem_cons_self _ _) h)

/-! ## The initial adjacency record -/

theorem adjGet_elemFold :
    ∀ (es : List String) (adj : Adj), (∀ y, adjGet adj y = []) →
      ∀ y, adjGet (es.foldl (fun adj e => adjUpdate adj e []) adj) y = []
  | [], _, h, y => h y
  | e :: rest, adj, h, y =>
    adjGet_elemFold rest _
      (fun z => by
        rw [adjGet_adjUpdate]
        by_cases hz : z = e <;> simp [hz, h z]) y

theorem mem_relFold :
    ∀ (rels : List (String × String)) (adj : Adj) (i x : String),
      x ∈ adjGet (rels.foldl (fun adj ab => addEdge adj ab.1 ab.2) adj) i ↔
        x ∈ adjGet adj i ∨ (i, x) ∈ rels := by
  intro rels
  induction rels with
  | nil => intro adj i x; simp
  | cons ab rest ih =>
    intro adj i x
    rw [List.foldl_cons, ih, mem_adjGet_addEdge]
    constructor
    · rintro ((h | ⟨rfl, rfl⟩) | h)
      · exact Or.inl h
      · exact Or.inr (by rw [Prod.mk.eta]; exact List.mem_cons_self _ _)
      · exact Or.inr (List.mem_cons_of_mem _ h)
    · rintro (h | h)
      · exact Or.inl (Or.inl h)
      · rcases List.mem_cons.mp h with h | h
        · exact Or.inl (Or.inr ⟨congrArg Prod.fst h, congrArg Prod.snd h⟩)
        · exact Or.inr h

theorem mem_initAdj (poset : PosetData) (i x : String) :
    x ∈ adjGet (initAdj poset) i ↔ (i, x) ∈ poset.relations := by
  unfold initAdj
  rw [mem_relFold, adjGet_elemFold poset.elements [] (fun _ => rfl) i]
  simp

/-! ## Path lemmas -/

theorem pathVia_mono {step : String → String → Prop} {m1 m2 : String → Prop}
    (h : ∀ v, m1 v → m2 v) {a b : String} (p : PathVia step m1 a b) :
    PathVia step m2 a b := by
  induction p with
  | single hs => exact PathVia.single hs
  | cons hs hm _ ih => exact PathVia.cons hs (h _ hm) ih

theorem pathVia_trans {step : String → String → Prop} {mid : String → Prop}
    {a k b : String} (p : PathVia step mid a k) (hk : mid k)
    (q : PathVia step mid k b) : PathVia step mid a b := by
  induction p with
  | single hs => exact PathVia.cons hs hk q
  | cons hs hm _ ih => exact PathVia.cons hs hm (ih hk q)

theorem pathVia_split {step : String → String → Prop} {mid : String → Prop} (x : String)
    {a b : String} (p : PathVia step mid a b) :
    PathVia step (fun v => mid v ∧ v ≠ x) a b ∨
      (PathVia step (fun v => mid v ∧ v ≠ x) a x ∧
        PathVia step (fun v => mid v ∧ v ≠ x) x b) := by
  induction p with
  | single hs => exact Or.inl (PathVia.single hs)
  | @cons a' k' b' hs hm p' ih =>
    by_cases hk : k' = x
    · subst hk
      rcases ih with ih | ⟨ih1, ih2⟩
      · exact Or.inr ⟨PathVia.single hs, ih⟩
      · exact Or.inr ⟨PathVia.single hs, ih2⟩
    · rcases ih with ih | ⟨ih1, ih2⟩
      · exact Or.inl (PathVia.cons hs ⟨hm, hk⟩ ih)
      · exact Or.inr ⟨PathVia.cons hs ⟨hm, hk⟩ ih1, ih2⟩

theorem pathVia_of_false {step : String → String → Prop} {a b : String}
    (p : PathVia step (fun _ => False) a b) : step a b := by
  cases p with
  | single hs => exact hs
  | cons hs hm p' => exact hm.elim

/-! ## Floyd-Warshall step lemmas -/

theorem fwStepJ_grow (k i : String) (adj : Adj) (j y x : String)
    (h : x ∈ adjGet adj y) : x ∈ adjGet (fwStepJ k i adj j) y := by
  unfold fwStepJ
  split
  · exact (mem_adjGet_addEdge adj i j y x).mpr (Or.inl h)
  · exact h

theorem fwStepI_grow (E : List String) (k : String) (adj : Adj) (i y x : String)
    (h : x ∈ adjGet adj y) : x ∈ adjGet (fwStepI E k adj i) y :=
  foldl_grow (fun adj j y x h => fwStepJ_grow k i adj j y x h) E adj y x h

theorem fwStepK_grow (E : List String) (adj : Adj) (k y x : String)
    (h : x ∈ adjGet adj y) : x ∈ adjGet (fwStepK E adj k) y :=
  foldl_grow (fun adj i y x h => fwStepI_grow E k adj i y x h) E adj y x h

theorem fwStepJ_adds (k i j : String) (adj : Adj)
    (h1 : k ∈ adjGet adj i) (h2 : j ∈ adjGet adj k) :
    j ∈ adjGet (fwStepJ k i adj j) i := by
  unfold fwStepJ
  rw [if_pos ⟨h1, h2⟩]
  exact (mem_adjGet_addEdge adj i j i j).mpr (Or.inr ⟨rfl, rfl⟩)

theorem fwStepI_adds :
    ∀ (js : List String) (adj : Adj) (k i j : String), j ∈ js →
      k ∈ adjGet adj i → j ∈ adjGet adj k → j ∈ adjGet (js.foldl (fwStepJ k i) adj) i
  | [], _, _, _, _, hj, _, _ => absurd hj (List.not_mem_nil _)
  | j0 :: rest, adj, k, i, j, hj, h1, h2 => by
    rw [List.foldl_cons]
    rcases List.mem_cons.mp hj with rfl | hj'
    · exact foldl_grow (fun adj b y x h => fwStepJ_grow k i adj b y x h) rest _ i j
        (fwStepJ_adds k i j adj h1 h2)
    · exact fwStepI_adds rest _ k i j hj' (fwStepJ_grow k i adj j0 i k h1)
        (fwStepJ_grow k i adj j0 k j h2)

theorem fwStepK_adds :
    ∀ (is : List String) (E : List String) (adj : Adj) (k i j : String),
      i ∈ is → j ∈ E → k ∈ adjGet adj i → j ∈ adjGet adj k →
      j ∈ adjGet (is.foldl (fwStepI E k) adj) i
  | [], _, _, _, _, _, hi, _, _, _ => absurd hi (List.not_mem_nil _)
  | i0 :: rest, E, adj, k, i, j, hi, hjE, h1, h2 => by
    rw [List.foldl_cons]
    rcases List.mem_cons.mp hi with rfl | hi'
    · exact foldl_grow (fun adj b y x h => fwStepI_grow E k adj b y x h) rest _ i j
        (fwStepI_adds E adj k i j hjE h1 h2)
    · exact fwStepK_adds rest E _ k i j hi' hjE (fwStepI_grow E k adj i0 i k h1)
        (fwStepI_grow E k adj i0 k j h2)

/-! ## Floyd-Warshall invariants -/

theorem fwSound_stepJ (poset : PosetData) (k i j : String) (hk : k ∈ poset.elements)
    (adj : Adj) (hs : FwSound poset adj) : FwSound poset (fwStepJ k i adj j) := by
  intro y x hx
  unfold fwStepJ at hx
  split at hx
  · rcases (mem_adjGet_addEdge adj i j y x).mp hx with hx' | ⟨rfl, rfl⟩
    · exact hs y x hx'
    · rename_i hcond
      exact pathVia_trans (hs y k hcond.1) hk (hs k x hcond.2)
  · exact hs y x hx

theorem fwSound_fwAdj (poset : PosetData) : FwSound poset (fwAdj poset) := by
  have hbase : FwSound poset (initAdj poset) := by
    intro i j hj
    exact PathVia.single ((mem_initAdj poset i j).mp hj)
  show FwSound poset (poset.elements.foldl (fwStepK poset.elements) (initAdj poset))
  refine foldl_pres _ (fun adj k hk hs => ?_) _ hbase
  show FwSound poset (poset.elements.foldl (fwStepI poset.elements k) adj)
  refine foldl_pres _ (fun adj i _ hs => ?_) _ hs
  exact foldl_pres _ (fun adj j _ hs => fwSound_stepJ poset k i j hk adj hs) _ hs

theorem fwRange_stepJ (poset : PosetData) (k i j : String) (hj : j ∈ poset.elements)
    (adj : Adj) (hr : FwRange poset adj) : FwRange poset (fwStepJ k i adj j) := by
  intro y x hx
  unfold fwStepJ at hx
  split at hx
  · rcases (mem_adjGet_addEdge adj i j y x).mp hx with hx' | ⟨rfl, rfl⟩
    · exact hr y x hx'
    · exact Or.inr hj
  · exact hr y x hx

theorem fwRange_fwAdj (poset : PosetData) : FwRange poset (fwAdj poset) := by
  have hbase : FwRange poset (initAdj poset) :=
    fun i j hj => Or.inl ((mem_initAdj poset i j).mp hj)
  show FwRange poset (poset.elements.foldl (fwStepK poset.elements) (initAdj poset))
  refine foldl_pres _ (fun adj k _ hr => ?_) _ hbase
  show FwRange poset (poset.elements.foldl (fwStepI poset.elements k) adj)
  refine foldl_pres _ (fun adj i _ hr => ?_) _ hr
  exact foldl_pres _ (fun adj j hj hr => fwRange_stepJ poset k i j hj adj hr) _ hr

theorem fwComp_stepK (poset : PosetData) (S : String → Prop) (k : String)
    (hk : k ∈ poset.elements) (adj : Adj) (hc : FwComp poset S adj) :
    FwComp poset (fun v => S v ∨ v = k) (fwStepK poset.elements adj k) := by
  intro i j hi hj p
  rcases pathVia_split k p with p' | ⟨p1, p2⟩
  · have pS : PathVia (relOf poset) S i j :=
      pathVia_mono (fun v hv => hv.1.resolve_right hv.2) p'
    exact fwStepK_grow poset.elements adj k i j (hc i j hi hj pS)
  · have p1S : PathVia (relOf poset) S i k :=
      pathVia_mono (fun v hv => hv.1.resolve_right hv.2) p1
    have p2S : PathVia (relOf poset) S k j :=
      pathVia_mono (fun v hv => hv.1.resolve_right hv.2) p2
    exact fwStepK_adds poset.elements poset.elements adj k i j hi hj
      (hc i k hi hk p1S) (hc k j hk hj p2S)

theorem fwComp_fold :
    ∀ (ks : List String) (poset : PosetData) (S : String → Prop) (adj : Adj),
      (∀ k ∈ ks, k ∈ poset.elements) → FwComp poset S adj →
      FwComp poset (fun v => S v ∨ v ∈ ks) (ks.foldl (fwStepK poset.elements) adj)
  | [], poset, S, adj, _, hc => by
    intro i j hi hj p
    exact hc i j hi hj
      (pathVia_mono (fun v hv => hv.resolve_right (List.not_mem_nil v)) p)
  | k :: rest, poset, S, adj, hks, hc => by
    rw [List.foldl_cons]
    have hc' := fwComp_stepK poset S k (hks k (List.mem_cons_self _ _)) adj hc
    have hrec := fwComp_fold rest poset (fun v => S v ∨ v = k) _
      (fun k' hk' => hks k' (List.mem_cons_of_mem _ hk')) hc'
    intro i j hi hj p
    refine hrec i j hi hj (pathVia_mono ?_ p)
    intro v hv
    rcases hv with hv | hv
    · exact Or.inl (Or.inl hv)
    · rcases List.mem_cons.mp hv with rfl | hv'
      · exact Or.inl (Or.inr rfl)
      · exact Or.inr hv'

theorem fwComp_fwAdj (poset : PosetData) :
    FwComp poset (fun v => v ∈ poset.elements) (fwAdj poset) := by
  have hbase : FwComp poset (fun _ => False) (initAdj poset) := by
    intro i j hi hj p
    exact (mem_initAdj poset i j).mpr (pathVia_of_false p)
  have h := fwComp_fold poset.elements poset (fun _ => False) (initAdj poset)
    (fun k hk => hk) hbase
  intro i j hi hj p
  exact h i j hi hj (pathVia_mono (fun v hv => Or.inr hv) p)

/-- The raw pair-level transitivity of the Floyd-Warshall result, for
endpoints drawn from the element list. -/
theorem fwAdj_trans (poset : PosetData) {a b c : String}
    (ha : a ∈ poset.elements) (hb : b ∈ poset.elements) (hc : c ∈ poset.elements)
    (h1 : b ∈ adjGet (fwAdj poset) a) (h2 : c ∈ adjGet (fwAdj poset) b) :
    c ∈ adjGet (fwAdj poset) a :=
  fwComp_fwAdj poset a c ha hc
    (pathVia_trans (fwSound_fwAdj poset a b h1) hb (fwSound_fwAdj poset b c h2))

/-! ## The closure key set -/

theorem mem_addKey (acc : List String) (s x : String) :
    x ∈ addKey acc s ↔ x ∈ acc ∨ x = s := by
  unfold addKey
  split
  · rename_i hs
    constructor
    · exact fun h => Or.inl h
    · rintro (h | rfl)
      · exact h
      · exact hs
  · rw [List.mem_append, List.mem_singleton]

theorem mem_foldl_addKey (g : String → String) :
    ∀ (js : List String) (acc : List String) (x : String),
      x ∈ js.foldl (fun acc j => addKey acc (g j)) acc ↔
        x ∈ acc ∨ ∃ j ∈ js, x = g j
  | [], acc, x => by simp
  | j0 :: rest, acc, x => by
    rw [List.foldl_cons, mem_foldl_addKey g rest, mem_addKey]
    constructor
    · rintro ((h | rfl) | ⟨j, hj, rfl⟩)
      · exact Or.inl h
      · exact Or.inr ⟨j0, List.mem_cons_self _ _, rfl⟩
      · exact Or.inr ⟨j, List.mem_cons_of_mem _ hj, rfl⟩
    · rintro (h | ⟨j, hj, rfl⟩)
      · exact Or.inl (Or.inl h)
      · rcases List.mem_cons.mp hj with rfl | hj'
        · exact Or.inl (Or.inr rfl)
        · exact Or.inr ⟨j, hj', rfl⟩

theorem mem_computeTransitiveClosure (poset : PosetData) (s : String) :
    s ∈ computeTransitiveClosure poset ↔
      ∃ i ∈ poset.elements, ∃ j ∈ adjGet (fwAdj poset) i, s = key i j := by
  unfold computeTransitiveClosure
  have main :
      ∀ (is : List String) (acc : List String),
        s ∈ is.foldl (fun acc i =>
            (adjGet (fwAdj poset) i).foldl (fun acc j => addKey acc (key i j)) acc) acc ↔
          s ∈ acc ∨ ∃ i ∈ is, ∃ j ∈ adjGet (fwAdj poset) i, s = key i j := by
    intro is
    induction is with
    | nil => intro acc; simp
    | cons i0 rest ih =>
      intro acc
      rw [List.foldl_cons, ih, mem_foldl_addKey]
      constructor
      · rintro ((h | ⟨j, hj, rfl⟩) | ⟨i, hi, j, hj, rfl⟩)
        · exact Or.inl h
        · exact Or.inr ⟨i0, List.mem_cons_self _ _, j, hj, rfl⟩
        · exact Or.inr ⟨i, List.mem_cons_of_mem _ hi, j, hj, rfl⟩
      · rintro (h | ⟨i, hi, j, hj, rfl⟩)
        · exact Or.inl (Or.inl h)
        · rcases List.mem_cons.mp hi with rfl | hi'
          · exact Or.inl (Or.inr ⟨j, hj, rfl⟩)
          · exact Or.inr ⟨i, hi', j, hj, rfl⟩
  rw [main]
  simp

/-! ## The covering-edge filter -/

theorem mem_directRelationsWith (E : List String) (rels : List (String × String))
    (C : List String) (a b : String) :
    (a, b) ∈ directRelationsWith E rels C ↔
      (a, b) ∈ rels ∧
        ∀ c ∈ E, ¬(c ≠ a ∧ c ≠ b ∧ key a c ∈ C ∧ key c b ∈ C) := by
  unfold directRelationsWith
  rw [List.mem_filter]
  constructor
  · rintro ⟨h1, h2⟩
    refine ⟨h1, ?_⟩
    intro c hc hcond
    rw [Bool.not_eq_true', List.any_eq_false] at h2
    have := h2 c hc
    simp only [decide_eq_true_eq] at this
    exact this hcond
  · rintro ⟨h1, h2⟩
    refine ⟨h1, ?_⟩
    rw [Bool.not_eq_true', List.any_eq_false]
    intro c hc
    simp only [decide_eq_true_eq]
    exact h2 c hc

/-! ## Shape of `computeHasseDiagram` -/

theorem computeHasseDiagram_eq (poset : PosetData) :
    computeHasseDiagram poset =
      (runLevelsF (directRelations poset) poset.elements).map fun st =>
        { nodes := poset.elements.map fun id =>
            { id := id, level := (lookupTbl st.levels id).getD none }
          edges := (directRelations poset).map fun ab => { source := ab.1, target := ab.2 } } :=
  rfl

/-- **C2.** An input relation `(a, b)` is an edge of the output diagram
iff it appears in the input relation list and no third element `c`
distinct from `a` and `b` has both `"a,c"` and `"c,b"` in the transitive
closure; in particular no edge is invented from closure-only pairs. -/
theorem claim2_edge_iff (poset : PosetData) (d : DiagramData)
    (hd : computeHasseDiagram poset = some d) (a b : String) :
    (⟨a, b⟩ : Edge) ∈ d.edges ↔
      ((a, b) ∈ poset.relations ∧
        ∀ c ∈ poset.elements,
          ¬(c ≠ a ∧ c ≠ b ∧ key a c ∈ computeTransitiveClosure poset ∧
            key c b ∈ computeTransitiveClosure poset)) := by
  rw [computeHasseDiagram_eq] at hd
  cases hrun : runLevelsF (directRelations poset) poset.elements with
  | none => rw [hrun] at hd; simp at hd
  | some st =>
    rw [hrun] at hd
    simp only [Option.map_some', Option.some.injEq] at hd
    subst hd
    show (⟨a, b⟩ : Edge) ∈ (directRelations poset).map
      (fun ab => { source := ab.1, target := ab.2 }) ↔ _
    rw [List.mem_map]
    constructor
    · rintro ⟨ab, hab, heq⟩
      have h1 : ab.1 = a := congrArg Edge.source heq
      have h2 : ab.2 = b := congrArg Edge.target heq
      have hmem : (a, b) ∈ directRelations poset := by
        rw [← h1, ← h2, Prod.mk.eta]
        exact hab
      exact (mem_directRelationsWith _ _ _ a b).mp hmem
    · intro h
      exact ⟨(a, b), (mem_directRelationsWith _ _ _ a b).mpr h, rfl⟩

/-- Witness for C2 at the chain `a < b < c`. -/
theorem claim2_edge_iff_witness : (⟨"a", "b"⟩ : Edge) ∈ chainDiagram.edges :=
  (claim2_edge_iff chainPoset chainDiagram rfl "a" "b").mpr (by decide)

/-! ## Claim 1: transitivity of the closure key set -/

/-- **C1 counterexample.**  The closure key set is *not* transitive for
arbitrary element names: for the well-formed poset with elements
`x`, `x,x`, `y` and relations `(x, "x,x")` and `(x, y)`, the key of the
pair `("x,x", "x")` is in the returned set (it is the string `"x,x,x"`,
produced by the pair `("x", "x,x")`), the key of `("x", "y")` is in the
set, but the key of `("x,x", "y")` is not. -/
theorem claim1_counterexample :
    key "x,x" "x" ∈ computeTransitiveClosure commaPoset ∧
    key "x" "y" ∈ computeTransitiveClosure commaPoset ∧
    key "x,x" "y" ∉ computeTransitiveClosure commaPoset ∧
    (∀ r ∈ commaPoset.relations,
      r.1 ∈ commaPoset.elements ∧ r.2 ∈ commaPoset.elements) := by
  decide

theorem append_cons_eq_append_cons {c : Char} :
    ∀ (xs ys as bs : List Char), c ∉ xs → c ∉ as →
      xs ++ c :: ys = as ++ c :: bs → xs = as ∧ ys = bs
  | [], ys, [], bs, _, _, h => ⟨rfl, (List.cons.inj h).2⟩
  | [], ys, a :: as', bs, _, ha, h => by
    have h1 : c = a := (List.cons.inj h).1
    exact absurd (by rw [h1]; exact List.mem_cons_self _ _) ha
  | x :: xs', ys, [], bs, hx, _, h => by
    have h1 : x = c := (List.cons.inj h).1
    exact absurd (by rw [← h1]; exact List.mem_cons_self _ _) hx
  | x :: xs', ys, a :: as', bs, hx, ha, h => by
    have h1 : x = a := (List.cons.inj h).1
    have h2 := append_cons_eq_append_cons xs' ys as' bs
      (fun hc => hx (List.mem_cons_of_mem _ hc))
      (fun hc => ha (List.mem_cons_of_mem _ hc)) (List.cons.inj h).2
    exact ⟨by rw [h1, h2.1], h2.2⟩

theorem key_data (a b : String) : (key a b).data = a.data ++ ',' :: b.data := by
  show (a ++ "," ++ b).data = _
  rw [String.data_append, String.data_append, List.append_assoc]
  congr 1

/-- Decomposing a closure key under the no-comma hypotheses: membership
of `key a b` forces `a` and `b` to be comma-free, `a` to be an element
and `(a, b)` to be a recorded Floyd-Warshall pair with `b` an element. -/
theorem key_mem_closure_elim (poset : PosetData)
    (hel : ∀ e ∈ poset.elements, noComma e)
    (hrel : ∀ r ∈ poset.relations, r.1 ∈ poset.elements ∧ r.2 ∈ poset.elements)
    {a b : String} (h : key a b ∈ computeTransitiveClosure poset) :
    a ∈ poset.elements ∧ b ∈ poset.elements ∧ b ∈ adjGet (fwAdj poset) a := by
  obtain ⟨i, hi, j, hj, heq⟩ := (mem_computeTransitiveClosure poset _).mp h
  have hjE : j ∈ poset.elements := by
    rcases fwRange_fwAdj poset i j hj with hr | hr
    · exact (hrel _ hr).2
    · exact hr
  have hiC : noComma i := hel i hi
  have hjC : noComma j := hel j hjE
  have hdata : a.data ++ ',' :: b.data = i.data ++ ',' :: j.data := by
    have := congrArg String.data heq
    rwa [key_data, key_data] at this
  -- a and b are comma-free: count the commas on both sides
  have hcount : a.data.count ',' + b.data.count ',' = 0 := by
    have hc := congrArg (List.count ',') hdata
    rw [List.count_append, List.count_append, List.count_cons_self,
      List.count_cons_self, List.count_eq_zero.mpr hiC, List.count_eq_zero.mpr hjC] at hc
    omega
  have haC : noComma a := List.count_eq_zero.mp (by omega)
  have hbC : noComma b := List.count_eq_zero.mp (by omega)
  obtain ⟨h1, h2⟩ := append_cons_eq_append_cons a.data b.data i.data j.data haC hiC hdata
  have ha : a = i := String.ext h1
  have hb : b = j := String.ext h2
  subst ha; subst hb
  exact ⟨hi, hjE, hj⟩

/-- **C1 (amended).**  For posets satisfying the documented data-model
invariant (every relation endpoint appears in the element list) whose
element names contain no comma — true of everything either builder
produces — the returned closure key set is transitive; and for the
three-element chain the closure is exactly
`{(a,b), (b,c), (a,c)}` (as the key list `["a,b", "a,c", "b,c"]`). -/
theorem claim1_closure_transitive (poset : PosetData)
    (hel : ∀ e ∈ poset.elements, noComma e)
    (hrel : ∀ r ∈ poset.relations, r.1 ∈ poset.elements ∧ r.2 ∈ poset.elements) :
    (∀ a b c : String,
      key a b ∈ computeTransitiveClosure poset →
      key b c ∈ computeTransitiveClosure poset →
      key a c ∈ computeTransitiveClosure poset) ∧
    computeTransitiveClosure chainPoset = ["a,b", "a,c", "b,c"] := by
  constructor
  · intro a b c h1 h2
    obtain ⟨haE, hbE, hab⟩ := key_mem_closure_elim poset hel hrel h1
    obtain ⟨-, hcE, hbc⟩ := key_mem_closure_elim poset hel hrel h2
    exact (mem_computeTransitiveClosure poset _).mpr
      ⟨a, haE, c, fwAdj_trans poset haE hbE hcE hab hbc, rfl⟩
  · decide

/-- Witness for C1 (amended) at the chain `a < b < c`. -/
theorem claim1_closure_transitive_witness :
    computeTransitiveClosure chainPoset = ["a,b", "a,c", "b,c"] :=
  (claim1_closure_transitive chainPoset (by decide) (by decide)).2

/-! ## Claim 6: idempotence of the reduction -/

theorem addEdge_lockstep (A B : Adj) (i j : String)
    (h : ∀ y x, x ∈ adjGet A y → x ∈ adjGet B y) :
    ∀ y x, x ∈ adjGet (addEdge A i j) y → x ∈ adjGet (addEdge B i j) y := by
  intro y x hx
  rcases (mem_adjGet_addEdge A i j y x).mp hx with hx' | hx'
  · exact (mem_adjGet_addEdge B i j y x).mpr (Or.inl (h y x hx'))
  · exact (mem_adjGet_addEdge B i j y x).mpr (Or.inr hx')

theorem fwStepJ_lockstep (k i j : String) (A B : Adj)
    (h : ∀ y x, x ∈ adjGet A y → x ∈ adjGet B y) :
    ∀ y x, x ∈ adjGet (fwStepJ k i A j) y → x ∈ adjGet (fwStepJ k i B j) y := by
  intro y x hx
  unfold fwStepJ at hx ⊢
  split at hx
  · rename_i hcond
    rw [if_pos ⟨h i k hcond.1, h k j hcond.2⟩]
    exact addEdge_lockstep A B i j h y x hx
  · split
    · exact (mem_adjGet_addEdge B i j y x).mpr (Or.inl (h y x hx))
    · exact h y x hx

theorem foldl_lockstep {β : Type} {f : Adj → β → Adj}
    (hf : ∀ A B b, (∀ y x, x ∈ adjGet A y → x ∈ adjGet B y) →
      ∀ y x, x ∈ adjGet (f A b) y → x ∈ adjGet (f B b) y) :
    ∀ (l : List β) (A B : Adj), (∀ y x, x ∈ adjGet A y → x ∈ adjGet B y) →
      ∀ y x, x ∈ adjGet (l.foldl f A) y → x ∈ adjGet (l.foldl f B) y
  | [], _, _, h => h
  | b :: rest, A, B, h => foldl_lockstep hf rest (f A b) (f B b) (hf A B b h)

theorem fwAdj_mono (E : List String) (R R' : List (String × String))
    (hsub : ∀ ab ∈ R', ab ∈ R) :
    ∀ y x, x ∈ adjGet (fwAdj ⟨E, R'⟩) y → x ∈ adjGet (fwAdj ⟨E, R⟩) y := by
  have hinit : ∀ y x, x ∈ adjGet (initAdj ⟨E, R'⟩) y → x ∈ adjGet (initAdj ⟨E, R⟩) y := by
    intro y x hx
    exact (mem_initAdj ⟨E, R⟩ y x).mpr (hsub _ ((mem_initAdj ⟨E, R'⟩ y x).mp hx))
  show ∀ y x, x ∈ adjGet (E.foldl (fwStepK E) (initAdj ⟨E, R'⟩)) y →
    x ∈ adjGet (E.foldl (fwStepK E) (initAdj ⟨E, R⟩)) y
  refine foldl_lockstep (fun A B k h => ?_) E _ _ hinit
  show ∀ y x, x ∈ adjGet (E.foldl (fwStepI E k) A) y → x ∈ adjGet (E.foldl (fwStepI E k) B) y
  refine foldl_lockstep (fun A B i h => ?_) E A B h
  exact foldl_lockstep (fun A B j h => fwStepJ_lockstep k i j A B h) E A B h

theorem closureKeys_mono (E : List String) (R R' : List (String × String))
    (hsub : ∀ ab ∈ R', ab ∈ R) :
    ∀ s, s ∈ computeTransitiveClosure ⟨E, R'⟩ → s ∈ computeTransitiveClosure ⟨E, R⟩ := by
  intro s hs
  obtain ⟨i, hi, j, hj, rfl⟩ := (mem_computeTransitiveClosure ⟨E, R'⟩ s).mp hs
  exact (mem_computeTransitiveClosure ⟨E, R⟩ _).mpr
    ⟨i, hi, j, fwAdj_mono E R R' hsub i j hj, rfl⟩

theorem keepB_iff (E : List String) (C : List String) (ab : String × String) :
    (! E.any fun c =>
        decide (c ≠ ab.1 ∧ c ≠ ab.2 ∧ key ab.1 c ∈ C ∧ key c ab.2 ∈ C)) = true ↔
      ∀ c ∈ E, ¬(c ≠ ab.1 ∧ c ≠ ab.2 ∧ key ab.1 c ∈ C ∧ key c ab.2 ∈ C) := by
  rw [Bool.not_eq_true', List.any_eq_false]
  constructor
  · intro h c hc
    have := h c hc
    simp only [decide_eq_true_eq] at this
    exact this
  · intro h c hc
    simp only [decide_eq_true_eq]
    exact h c hc

/-- Rerunning the covering-edge filter on its own output (over the same
element list) keeps every edge. -/
theorem directRelations_idem (poset : PosetData) :
    directRelations ⟨poset.elements, directRelations poset⟩ = directRelations poset := by
  show directRelationsWith poset.elements (directRelations poset)
      (computeTransitiveClosure ⟨poset.elements, directRelations poset⟩) = _
  unfold directRelationsWith
  apply List.filter_eq_self.mpr
  intro ab hab
  rw [keepB_iff]
  intro c hc hcond
  -- ab survived the first filter, so no such c exists for the larger closure
  have hsub : ∀ p ∈ directRelations poset, p ∈ poset.relations := by
    intro p hp
    exact List.mem_of_mem_filter hp
  have hsurv := (List.mem_filter.mp hab).2
  rw [keepB_iff] at hsurv
  refine hsurv c hc ⟨hcond.1, hcond.2.1, ?_, ?_⟩
  · exact closureKeys_mono poset.elements poset.relations (directRelations poset) hsub _ hcond.2.2.1
  · exact closureKeys_mono poset.elements poset.relations (directRelations poset) hsub _ hcond.2.2.2

/-- Edges of a successfully computed diagram. -/
theorem edges_of_computeHasseDiagram (poset : PosetData) (d : DiagramData)
    (hd : computeHasseDiagram poset = some d) :
    d.edges = (directRelations poset).map fun ab => ⟨ab.1, ab.2⟩ := by
  rw [computeHasseDiagram_eq] at hd
  cases hrun : runLevelsF (directRelations poset) poset.elements with
  | none => rw [hrun] at hd; simp at hd
  | some st =>
    rw [hrun] at hd
    simp only [Option.map_some', Option.some.injEq] at hd
    subst hd
    rfl

/-- **C6.**  Running the reduction again, with the retained Hasse edges
as the new relation list over the same element set, returns exactly the
same edge list. -/
theorem claim6_reduction_idempotent (poset : PosetData) (d d' : DiagramData)
    (hd : computeHasseDiagram poset = some d)
    (hd' : computeHasseDiagram
      ⟨poset.elements, d.edges.map fun e => (e.source, e.target)⟩ = some d') :
    d'.edges = d.edges := by
  have hback : d.edges.map (fun e => (e.source, e.target)) = directRelations poset := by
    rw [edges_of_computeHasseDiagram poset d hd, List.map_map]
    have : ((fun e : Edge => (e.source, e.target)) ∘ fun ab : String × String =>
        (⟨ab.1, ab.2⟩ : Edge)) = id := by
      funext ab
      show (ab.1, ab.2) = ab
      exact Prod.mk.eta
    rw [this, List.map_id]
  rw [hback] at hd'
  rw [edges_of_computeHasseDiagram _ d' hd', directRelations_idem,
    edges_of_computeHasseDiagram poset d hd]

/-- Witness for C6 at the chain `a < b < c`. -/
theorem claim6_reduction_idempotent_witness : chainDiagram.edges = chainDiagram.edges :=
  claim6_reduction_idempotent chainPoset chainDiagram chainDiagram rfl rfl

/-! ## Claim 4: the divisibility example -/

theorem fwAdj_divPoset : fwAdj divPoset = divAdj := by
  have h0 : initAdj divPoset = divAdj := by decide
  have h1 : fwStepK divPoset.elements divAdj "1" = divAdj := by decide
  have h2 : fwStepK divPoset.elements divAdj "2" = divAdj := by decide
  have h3 : fwStepK divPoset.elements divAdj "3" = divAdj := by decide
  have h4 : fwStepK divPoset.elements divAdj "4" = divAdj := by decide
  have h5 : fwStepK divPoset.elements divAdj "6" = divAdj := by decide
  have h6 : fwStepK divPoset.elements divAdj "12" = divAdj := by decide
  show List.foldl (fwStepK divPoset.elements) (initAdj divPoset)
    ["1", "2", "3", "4", "6", "12"] = divAdj
  rw [h0]
  simp only [List.foldl_cons, List.foldl_nil]
  rw [h1, h2, h3, h4, h5, h6]

theorem closure_divPoset : computeTransitiveClosure divPoset =
    ["1,2", "1,3", "1,4", "1,6", "1,12", "2,4", "2,6", "2,12", "3,6", "3,12",
      "4,12", "6,12"] := by
  show divPoset.elements.foldl (fun acc i =>
    (adjGet (fwAdj divPoset) i).foldl (fun acc j => addKey acc (key i j)) acc) [] = _
  rw [fwAdj_divPoset]
  decide

theorem dr_divPoset : directRelations divPoset =
    [("1", "2"), ("1", "3"), ("2", "4"), ("2", "6"), ("3", "6"), ("4", "12"),
      ("6", "12")] := by
  show directRelationsWith divPoset.elements divPoset.relations
    (computeTransitiveClosure divPoset) = _
  rw [closure_divPoset]
  decide

/-- **C4.**  For input `1,2,3,4,6,12`, the divisibility generator builds
exactly the full divisibility relation (`divPoset`), and
`computeHasseDiagram` keeps exactly the covering edges
`{(1,2), (1,3), (2,4), (2,6), (3,6), (4,12), (6,12)}`; transitive pairs
such as `(1,4)` and `(1,12)` are not among them. -/
theorem claim4_divisibility_example :
    (generateDivisibilityPoset "1,2,3,4,6,12").toOption = some divPoset ∧
    ((computeHasseDiagram divPoset).map fun d => d.edges) = some divEdges ∧
    (⟨"1", "4"⟩ : Edge) ∉ divEdges ∧ (⟨"1", "12"⟩ : Edge) ∉ divEdges := by
  refine ⟨by decide, ?_, by decide, by decide⟩
  rw [computeHasseDiagram_eq, dr_divPoset]
  decide

/-! ## The level table -/

theorem tblDom_cons (p : String × Option Nat) (tbl : List (String × Option Nat)) :
    tblDom (p :: tbl) = p.1 :: tblDom tbl := rfl

theorem lookupTbl_cons (p : String × Option Nat) (tbl : List (String × Option Nat))
    (e : String) :
    lookupTbl (p :: tbl) e = if p.1 = e then some p.2 else lookupTbl tbl e := by
  by_cases h : p.1 = e <;> simp [lookupTbl, List.find?_cons, h]

theorem mem_dom_of_lookup (tbl : List (String × Option Nat)) (e : String)
    (v : Option Nat) (h : lookupTbl tbl e = some v) : e ∈ tblDom tbl := by
  induction tbl with
  | nil => exact absurd h (by simp [lookupTbl])
  | cons p rest ih =>
    rw [lookupTbl_cons] at h
    rw [tblDom_cons]
    by_cases hp : p.1 = e
    · exact hp ▸ List.mem_cons_self _ _
    · rw [if_neg hp] at h
      exact List.mem_cons_of_mem _ (ih h)

theorem lookup_some_of_mem_dom (tbl : List (String × Option Nat)) (e : String)
    (h : e ∈ tblDom tbl) : ∃ v, lookupTbl tbl e = some v := by
  induction tbl with
  | nil => exact absurd h (List.not_mem_nil _)
  | cons p rest ih =>
    rw [lookupTbl_cons]
    by_cases hp : p.1 = e
    · exact ⟨p.2, by rw [if_pos hp]⟩
    · rw [tblDom_cons] at h
      rcases List.mem_cons.mp h with h | h
      · exact absurd h.symm hp
      · rw [if_neg hp]
        exact ih h

theorem tblExt_refl (tbl : List (String × Option Nat)) : TblExt tbl tbl := fun _ _ h => h

theorem tblExt_trans {t1 t2 t3 : List (String × Option Nat)}
    (h1 : TblExt t1 t2) (h2 : TblExt t2 t3) : TblExt t1 t3 :=
  fun e v h => h2 e v (h1 e v h)

theorem tblExt_cons (tbl : List (String × Option Nat)) (e : String) (v : Option Nat)
    (he : e ∉ tblDom tbl) : TblExt tbl ((e, v) :: tbl) := by
  intro x w hx
  rw [lookupTbl_cons]
  split
  · rename_i h
    have hex : e = x := h
    subst hex
    exact absurd (mem_dom_of_lookup tbl e w hx) he
  · exact hx

theorem tblDom_mono_of_ext {t1 t2 : List (String × Option Nat)} (h : TblExt t1 t2)
    {e : String} (he : e ∈ tblDom t1) : e ∈ tblDom t2 := by
  obtain ⟨v, hv⟩ := lookup_some_of_mem_dom t1 e he
  exact mem_dom_of_lookup t2 e v (h e v hv)

theorem optSucc_isSome (a : Option Nat) : (optSucc a).isSome = a.isSome := by
  cases a <;> rfl

theorem optMax_isSome (a b : Option Nat) :
    (optMax a b).isSome = (a.isSome && b.isSome) := by
  cases a <;> cases b <;> rfl

theorem recompute_fold_congr (e : String) (t1 t2 : List (String × Option Nat))
    (hext : TblExt t1 t2) :
    ∀ (dr : List (String × String)) (acc : Option Nat),
      (∀ ab ∈ dr, ab.2 = e → ab.1 ∈ tblDom t1) →
      dr.foldl (fun acc ab =>
        if ab.2 = e then optMax acc (optSucc ((lookupTbl t2 ab.1).getD none)) else acc) acc =
      dr.foldl (fun acc ab =>
        if ab.2 = e then optMax acc (optSucc ((lookupTbl t1 ab.1).getD none)) else acc) acc
  | [], _, _ => rfl
  | ab :: rest, acc, hdom => by
    rw [List.foldl_cons, List.foldl_cons]
    by_cases hab : ab.2 = e
    · obtain ⟨v, hv⟩ :=
        lookup_some_of_mem_dom t1 ab.1 (hdom ab (List.mem_cons_self _ _) hab)
      rw [if_pos hab, if_pos hab, hv, hext _ _ hv]
      exact recompute_fold_congr e t1 t2 hext rest _
        (fun ab' h' => hdom ab' (List.mem_cons_of_mem _ h'))
    · rw [if_neg hab, if_neg hab]
      exact recompute_fold_congr e t1 t2 hext rest acc
        (fun ab' h' => hdom ab' (List.mem_cons_of_mem _ h'))

theorem recompute_congr (dr : List (String × String)) (t1 t2 : List (String × Option Nat))
    (e : String) (hext : TblExt t1 t2)
    (hdom : ∀ ab ∈ dr, ab.2 = e → ab.1 ∈ tblDom t1) :
    recompute dr t2 e = recompute dr t1 e :=
  recompute_fold_congr e t1 t2 hext dr (some 0) hdom

/-! ## Unfolding equations for the level recursion -/

theorem computeLevelF_succ (n : Nat) (dr : List (String × String)) (e : String)
    (st : LState) :
    computeLevelF (n + 1) dr e st =
      if e ∈ st.visited then some ((lookupTbl st.levels e).getD none, st)
      else
        match levelLoopF n dr dr e ⟨e :: st.visited, st.levels⟩ (some 0) with
        | none => none
        | some (m, st2) => some (m, ⟨st2.visited, (e, m) :: st2.levels⟩) := rfl

theorem levelLoopF_nil (n : Nat) (dr : List (String × String)) (e : String)
    (st : LState) (acc : Option Nat) :
    levelLoopF (n + 1) dr [] e st acc = some (acc, st) := rfl

theorem levelLoopF_cons (n : Nat) (dr : List (String × String))
    (ab : String × String) (rest : List (String × String)) (e : String)
    (st : LState) (acc : Option Nat) :
    levelLoopF (n + 1) dr (ab :: rest) e st acc =
      if ab.2 = e then
        match computeLevelF n dr ab.1 st with
        | none => none
        | some (lv, st2) => levelLoopF n dr rest e st2 (optMax acc (optSucc lv))
      else levelLoopF n dr rest e st acc := rfl

/-! ## Partial correctness of the memoized level computation

`levelInvariant` is the heart of claims C3 and C10's level analysis: when
the covering-edge graph admits a strictly increasing rank (i.e. is
acyclic), every successful run of the recursion preserves `TblInv`, only
extends the state, leaves the in-progress set unchanged, and records for
the computed element exactly the NaN-free recomputation from the final
table. -/

theorem levelInvariant (dr : List (String × String)) (rank : String → Nat)
    (hrank : ∀ ab ∈ dr, rank ab.1 < rank ab.2) :
    ∀ n : Nat,
      (∀ e st v st', computeLevelF n dr e st = some (v, st') →
        TblInv dr st → (∀ x, InProg st x → rank e < rank x) →
        TblInv dr st' ∧ TblExt st.levels st'.levels ∧
          (∀ x, x ∈ st.visited → x ∈ st'.visited) ∧
          (∀ x, InProg st' x ↔ InProg st x) ∧
          lookupTbl st'.levels e = some v) ∧
      (∀ rels e st acc m st', levelLoopF n dr rels e st acc = some (m, st') →
        TblInv dr st → InProg st e → (∀ x, InProg st x → rank e ≤ rank x) →
        (∀ ab ∈ rels, ab ∈ dr) →
        TblInv dr st' ∧ TblExt st.levels st'.levels ∧
          (∀ x, x ∈ st.visited → x ∈ st'.visited) ∧
          (∀ x, InProg st' x ↔ InProg st x) ∧
          (∀ ab ∈ rels, ab.2 = e → ab.1 ∈ tblDom st'.levels) ∧
          m = rels.foldl (fun acc ab =>
            if ab.2 = e then optMax acc (optSucc ((lookupTbl st'.levels ab.1).getD none))
            else acc) acc ∧
          (acc.isSome = true → m.isSome = true)) := by
  intro n
  induction n with
  | zero =>
    constructor
    · intro e st v st' h _ _
      exact Option.noConfusion h
    · intro rels e st acc m st' h _ _ _ _
      exact Option.noConfusion h
  | succ n ih =>
    obtain ⟨IH1, IH2⟩ := ih
    constructor
    · -- computeLevelF (n + 1)
      intro e st v st' h hInv hProg
      by_cases hvis : e ∈ st.visited
      · rw [computeLevelF_succ, if_pos hvis] at h
        have hinj := Option.some.inj h
        have hv : (lookupTbl st.levels e).getD none = v := congrArg Prod.fst hinj
        have hst : st = st' := congrArg Prod.snd hinj
        subst hst
        have hdom : e ∈ tblDom st.levels := by
          by_contra hnd
          exact absurd (hProg e ⟨hvis, hnd⟩) (lt_irrefl _)
        obtain ⟨w, hw⟩ := lookup_some_of_mem_dom st.levels e hdom
        refine ⟨hInv, tblExt_refl _, fun x hx => hx, fun x => Iff.rfl, ?_⟩
        rw [hw] at hv ⊢
        rw [show w = v from by simpa using hv]
      · rw [computeLevelF_succ, if_neg hvis] at h
        cases hloop : levelLoopF n dr dr e ⟨e :: st.visited, st.levels⟩ (some 0) with
        | none => rw [hloop] at h; exact Option.noConfusion h
        | some ms =>
          obtain ⟨m, st2⟩ := ms
          rw [hloop] at h
          have hinj := Option.some.inj h
          have hv : v = m := (congrArg Prod.fst hinj).symm
          have hst : st' = ⟨st2.visited, (e, m) :: st2.levels⟩ :=
            (congrArg Prod.snd hinj).symm
          subst hv
          subst hst
          have hedom : e ∉ tblDom st.levels := fun hd => hvis (hInv.1 e hd)
          have hInv1 : TblInv dr (⟨e :: st.visited, st.levels⟩ : LState) :=
            ⟨fun x hx => List.mem_cons_of_mem _ (hInv.1 x hx), hInv.2.1, hInv.2.2⟩
          have hProgE : InProg ⟨e :: st.visited, st.levels⟩ e :=
            ⟨List.mem_cons_self _ _, hedom⟩
          have hProg1 : ∀ x, InProg ⟨e :: st.visited, st.levels⟩ x → rank e ≤ rank x := by
            intro x hx
            obtain ⟨hxv, hxd⟩ := hx
            rcases List.mem_cons.mp hxv with rfl | hxv'
            · exact le_refl _
            · exact le_of_lt (hProg x ⟨hxv', hxd⟩)
          obtain ⟨Inv2, Ext2, Vis2, Prog2, Dom2, Hm, Hsome⟩ :=
            IH2 dr e _ (some 0) v st2 hloop hInv1 hProgE hProg1 (fun ab hab => hab)
          have hProgSt2e : InProg st2 e := (Prog2 e).mpr hProgE
          have hedom2 : e ∉ tblDom st2.levels := hProgSt2e.2
          have ExtC : TblExt st2.levels ((e, v) :: st2.levels) :=
            tblExt_cons _ e v hedom2
          refine ⟨⟨?_, ?_, ?_⟩, ?_, ?_, ?_, ?_⟩
          · -- I1
            intro x hx
            rw [tblDom_cons] at hx
            rcases List.mem_cons.mp hx with rfl | hx'
            · exact hProgSt2e.1
            · exact Inv2.1 x hx'
          · -- I2
            intro x w hw
            rw [lookupTbl_cons] at hw
            by_cases hex : e = x
            · subst hex
              rw [if_pos rfl] at hw
              have hvw : v = w := Option.some.inj hw
              subst hvw
              constructor
              · rw [recompute_congr dr st2.levels _ e ExtC
                  (fun ab hab h2 => Dom2 ab hab h2)]
                exact Hm
              · exact Hsome rfl
            · rw [if_neg hex] at hw
              obtain ⟨hrec, hsome⟩ := Inv2.2.1 x w hw
              refine ⟨?_, hsome⟩
              rw [recompute_congr dr st2.levels _ x ExtC
                (fun ab hab h2 => Inv2.2.2 x (mem_dom_of_lookup _ _ _ hw) ab hab h2)]
              exact hrec
          · -- I3
            intro x hx ab hab h2
            rw [tblDom_cons] at hx ⊢
            rcases List.mem_cons.mp hx with rfl | hx'
            · exact List.mem_cons_of_mem _ (Dom2 ab hab h2)
            · exact List.mem_cons_of_mem _ (Inv2.2.2 x hx' ab hab h2)
          · -- extension
            exact tblExt_trans Ext2 ExtC
          · -- visited mono
            intro x hx
            exact Vis2 x (List.mem_cons_of_mem _ hx)
          · -- InProg iff
            intro x
            constructor
            · rintro ⟨hxv, hxd⟩
              rw [tblDom_cons] at hxd
              have hxe : x ≠ e := fun hh => hxd (hh ▸ List.mem_cons_self _ _)
              have hx2 : InProg st2 x :=
                ⟨hxv, fun hh => hxd (List.mem_cons_of_mem _ hh)⟩
              obtain ⟨hxv1, hxd1⟩ := (Prog2 x).mp hx2
              rcases List.mem_cons.mp hxv1 with rfl | hxv1'
              · exact absurd rfl hxe
              · exact ⟨hxv1', hxd1⟩
            · rintro ⟨hxv, hxd⟩
              have hx1 : InProg ⟨e :: st.visited, st.levels⟩ x :=
                ⟨List.mem_cons_of_mem _ hxv, hxd⟩
              obtain ⟨hxv2, hxd2⟩ := (Prog2 x).mpr hx1
              refine ⟨hxv2, ?_⟩
              rw [tblDom_cons]
              intro hh
              rcases List.mem_cons.mp hh with rfl | hh'
              · exact hvis hxv
              · exact hxd2 hh'
          · -- lookup
            rw [lookupTbl_cons, if_pos rfl]
    · -- levelLoopF (n + 1)
      intro rels e st acc m st' h hInv hProgE hProg hrels
      cases rels with
      | nil =>
        rw [levelLoopF_nil] at h
        have hinj := Option.some.inj h
        have hm : acc = m := congrArg Prod.fst hinj
        have hst : st = st' := congrArg Prod.snd hinj
        subst hm
        subst hst
        refine ⟨hInv, tblExt_refl _, fun x hx => hx, fun x => Iff.rfl, ?_, rfl, fun hh => hh⟩
        intro ab hab
        exact absurd hab (List.not_mem_nil _)
      | cons ab rest =>
        rw [levelLoopF_cons] at h
        by_cases hab : ab.2 = e
        · rw [if_pos hab] at h
          cases hcl : computeLevelF n dr ab.1 st with
          | none => rw [hcl] at h; exact Option.noConfusion h
          | some ls =>
            obtain ⟨lv, stc⟩ := ls
            rw [hcl] at h
            have hchildProg : ∀ x, InProg st x → rank ab.1 < rank x := by
              intro x hx
              have h1 : rank ab.1 < rank e :=
                hab ▸ hrank ab (hrels ab (List.mem_cons_self _ _))
              exact lt_of_lt_of_le h1 (hProg x hx)
            obtain ⟨InvC, ExtC, VisC, ProgC, LookC⟩ :=
              IH1 ab.1 st lv stc hcl hInv hchildProg
            have hProgE' : InProg stc e := (ProgC e).mpr hProgE
            have hProg' : ∀ x, InProg stc x → rank e ≤ rank x :=
              fun x hx => hProg x ((ProgC x).mp hx)
            obtain ⟨Inv', Ext', Vis', Prog', Dom', Hm', Hsome'⟩ :=
              IH2 rest e stc (optMax acc (optSucc lv)) m st' h InvC hProgE' hProg'
                (fun ab' h' => hrels ab' (List.mem_cons_of_mem _ h'))
            have hlvSome : lv.isSome = true := (InvC.2.1 ab.1 lv LookC).2
            refine ⟨Inv', tblExt_trans ExtC Ext', fun x hx => Vis' x (VisC x hx),
              fun x => (Prog' x).trans (ProgC x), ?_, ?_, ?_⟩
            · intro ab' hab' h2
              rcases List.mem_cons.mp hab' with rfl | hab''
              · exact tblDom_mono_of_ext Ext' (mem_dom_of_lookup _ _ _ LookC)
              · exact Dom' ab' hab'' h2
            · rw [List.foldl_cons, if_pos hab, Ext' ab.1 lv LookC]
              exact Hm'
            · intro hacc
              apply Hsome'
              rw [optMax_isSome, optSucc_isSome, hacc, hlvSome]
              rfl
        · rw [if_neg hab] at h
          obtain ⟨Inv', Ext', Vis', Prog', Dom', Hm', Hsome'⟩ :=
            IH2 rest e st acc m st' h hInv hProgE hProg
              (fun ab' h' => hrels ab' (List.mem_cons_of_mem _ h'))
          refine ⟨Inv', Ext', Vis', Prog', ?_, ?_, Hsome'⟩
          · intro ab' hab' h2
            rcases List.mem_cons.mp hab' with rfl | hab''
            · exact absurd h2 hab
            · exact Dom' ab' hab'' h2
          · rw [List.foldl_cons, if_neg hab]
            exact Hm'

/-! ## Claim 10: termination of the memoized recursion -/

theorem levelVisited_mono :
    ∀ n : Nat,
      (∀ dr e st v st', computeLevelF n dr e st = some (v, st') →
        ∀ x, x ∈ st.visited → x ∈ st'.visited) ∧
      (∀ dr rels e st acc m st', levelLoopF n dr rels e st acc = some (m, st') →
        ∀ x, x ∈ st.visited → x ∈ st'.visited) := by
  intro n
  induction n with
  | zero =>
    exact ⟨fun _ _ _ _ _ h => Option.noConfusion h,
      fun _ _ _ _ _ _ _ h => Option.noConfusion h⟩
  | succ n ih =>
    obtain ⟨IH1, IH2⟩ := ih
    constructor
    · intro dr e st v st' h x hx
      by_cases hvis : e ∈ st.visited
      · rw [computeLevelF_succ, if_pos hvis] at h
        have hst : st = st' := congrArg Prod.snd (Option.some.inj h)
        exact hst ▸ hx
      · rw [computeLevelF_succ, if_neg hvis] at h
        cases hloop : levelLoopF n dr dr e ⟨e :: st.visited, st.levels⟩ (some 0) with
        | none => rw [hloop] at h; exact Option.noConfusion h
        | some ms =>
          obtain ⟨m, st2⟩ := ms
          rw [hloop] at h
          have hst : st' = ⟨st2.visited, (e, m) :: st2.levels⟩ :=
            (congrArg Prod.snd (Option.some.inj h)).symm
          rw [hst]
          exact IH2 dr dr e _ (some 0) m st2 hloop x (List.mem_cons_of_mem _ hx)
    · intro dr rels e st acc m st' h x hx
      cases rels with
      | nil =>
        rw [levelLoopF_nil] at h
        have hst : st = st' := congrArg Prod.snd (Option.some.inj h)
        exact hst ▸ hx
      | cons ab rest =>
        rw [levelLoopF_cons] at h
        by_cases hab : ab.2 = e
        · rw [if_pos hab] at h
          cases hcl : computeLevelF n dr ab.1 st with
          | none => rw [hcl] at h; exact Option.noConfusion h
          | some ls =>
            obtain ⟨lv, stc⟩ := ls
            rw [hcl] at h
            exact IH2 dr rest e stc _ m st' h x (IH1 dr ab.1 st lv stc hcl x hx)
        · rw [if_neg hab] at h
          exact IH2 dr rest e st acc m st' h x hx

/-- The recursion-depth budget argument: fuel `1 + k·(|dr| + 1)` always
suffices for a call on an element of the universe `U` when at most `k`
universe elements are unvisited — the JS termination argument (every
element is marked visited before the recursion descends into it). -/
theorem levelFuel_sufficient (dr : List (String × String)) (U : List String)
    (hU : ∀ ab ∈ dr, ab.1 ∈ U) :
    ∀ n : Nat,
      (∀ k e st, e ∈ U → (U.toFinset \ st.visited.toFinset).card ≤ k →
        1 + k * (dr.length + 1) ≤ n → (computeLevelF n dr e st).isSome = true) ∧
      (∀ k rels e st acc, (∀ ab ∈ rels, ab.1 ∈ U) →
        (U.toFinset \ st.visited.toFinset).card ≤ k →
        rels.length + 1 + k * (dr.length + 1) ≤ n →
        (levelLoopF n dr rels e st acc).isSome = true) := by
  intro n
  induction n with
  | zero =>
    constructor
    · intro k e st _ _ hfuel
      omega
    · intro k rels e st acc _ _ hfuel
      omega
  | succ n ih =>
    obtain ⟨IH1, IH2⟩ := ih
    constructor
    · intro k e st heU hslack hfuel
      by_cases hvis : e ∈ st.visited
      · rw [computeLevelF_succ, if_pos hvis]
        rfl
      · rw [computeLevelF_succ, if_neg hvis]
        have hek : e ∈ U.toFinset \ st.visited.toFinset := by
          rw [Finset.mem_sdiff, List.mem_toFinset, List.mem_toFinset]
          exact ⟨heU, hvis⟩
        have hkpos : 1 ≤ k := by
          have := Finset.card_pos.mpr ⟨e, hek⟩
          omega
        obtain ⟨k', rfl⟩ : ∃ k', k = k' + 1 := ⟨k - 1, by omega⟩
        have hslack' :
            (U.toFinset \ (⟨e :: st.visited, st.levels⟩ : LState).visited.toFinset).card ≤ k' := by
          show (U.toFinset \ (e :: st.visited).toFinset).card ≤ k'
          rw [List.toFinset_cons, Finset.sdiff_insert]
          have := Finset.card_erase_of_mem hek
          omega
        have hfuel' : dr.length + 1 + k' * (dr.length + 1) ≤ n := by
          have hmul : (k' + 1) * (dr.length + 1) = k' * (dr.length + 1) + (dr.length + 1) :=
            Nat.succ_mul _ _
          rw [hmul] at hfuel
          omega
        have hloop := IH2 k' dr e ⟨e :: st.visited, st.levels⟩ (some 0) hU hslack' hfuel'
        cases hres : levelLoopF n dr dr e ⟨e :: st.visited, st.levels⟩ (some 0) with
        | none => rw [hres] at hloop; exact absurd hloop (by simp)
        | some ms =>
          obtain ⟨m, st2⟩ := ms
          rfl
    · intro k rels e st acc hrelsU hslack hfuel
      cases rels with
      | nil =>
        rw [levelLoopF_nil]
        rfl
      | cons ab rest =>
        rw [levelLoopF_cons]
        by_cases hab : ab.2 = e
        · rw [if_pos hab]
          have hchild := IH1 k ab.1 st (hrelsU ab (List.mem_cons_self _ _)) hslack
            (by simp only [List.length_cons] at hfuel; omega)
          cases hcl : computeLevelF n dr ab.1 st with
          | none => rw [hcl] at hchild; exact absurd hchild (by simp)
          | some ls =>
            obtain ⟨lv, stc⟩ := ls
            have hslack2 : (U.toFinset \ stc.visited.toFinset).card ≤ k := by
              refine le_trans (Finset.card_le_card ?_) hslack
              intro x hx
              rw [Finset.mem_sdiff, List.mem_toFinset, List.mem_toFinset] at hx ⊢
              refine ⟨hx.1, fun hmem => hx.2 ?_⟩
              exact absurd ((levelVisited_mono n).1 dr ab.1 st lv stc hcl x hmem) hx.2
            exact IH2 k rest e stc (optMax acc (optSucc lv))
              (fun ab' h' => hrelsU ab' (List.mem_cons_of_mem _ h')) hslack2
              (by simp only [List.length_cons] at hfuel; omega)
        · rw [if_neg hab]
          exact IH2 k rest e st acc
            (fun ab' h' => hrelsU ab' (List.mem_cons_of_mem _ h')) hslack
            (by simp only [List.length_cons] at hfuel; omega)

theorem runFold_isSome (dr : List (String × String)) (U : List String) (F : Nat)
    (hU : ∀ ab ∈ dr, ab.1 ∈ U)
    (hF : 1 + U.length * (dr.length + 1) ≤ F) :
    ∀ (es : List String) (st : LState), (∀ e ∈ es, e ∈ U) →
      (es.foldlM (fun st e =>
        if e ∈ st.visited then some st
        else (computeLevelF F dr e st).map Prod.snd) st).isSome = true
  | [], _, _ => rfl
  | e :: rest, st, hes => by
    show ((if e ∈ st.visited then some st
        else (computeLevelF F dr e st).map Prod.snd) >>= fun s => rest.foldlM _ s).isSome = true
    by_cases hvis : e ∈ st.visited
    · rw [if_pos hvis]
      exact runFold_isSome dr U F hU hF rest st
        (fun x hx => hes x (List.mem_cons_of_mem _ hx))
    · rw [if_neg hvis]
      have hslack : (U.toFinset \ st.visited.toFinset).card ≤ U.length := by
        refine le_trans (Finset.card_le_card ?_) (List.toFinset_card_le U)
        exact Finset.sdiff_subset
      have hsome := (levelFuel_sufficient dr U hU F).1 U.length e st
        (hes e (List.mem_cons_self _ _)) hslack hF
      cases hcl : computeLevelF F dr e st with
      | none => rw [hcl] at hsome; exact absurd hsome (by simp)
      | some vs =>
        obtain ⟨v, st'⟩ := vs
        exact runFold_isSome dr U F hU hF rest st'
          (fun x hx => hes x (List.mem_cons_of_mem _ hx))

/-- **C10.**  `computeHasseDiagram` terminates with a diagram for every
finite input poset, including relation lists whose covering-edge graph is
cyclic: each element is marked visited before the recursion descends into
its predecessors, so the recursion-depth budget `levelFuel` is never
exhausted and the memoized recursion cannot descend infinitely. -/
theorem claim10_terminates (poset : PosetData) :
    (computeHasseDiagram poset).isSome = true := by
  rw [computeHasseDiagram_eq]
  have hrun : (runLevelsF (directRelations poset) poset.elements).isSome = true := by
    unfold runLevelsF
    apply runFold_isSome (directRelations poset)
      (poset.elements ++ (directRelations poset).map Prod.fst)
      (levelFuel (directRelations poset) poset.elements)
    · intro ab hab
      exact List.mem_append_right _ (List.mem_map_of_mem Prod.fst hab)
    · rw [List.length_append, List.length_map]
      unfold levelFuel
      generalize (directRelations poset).length = b
      generalize poset.elements.length = a
      have h1 : (a + b + 1) * (b + 2) = (a + b) * (b + 2) + (b + 2) := Nat.succ_mul _ _
      have h2 : (a + b) * (b + 2) = (a + b) * (b + 1) + (a + b) := Nat.mul_succ _ _
      generalize (a + b) * (b + 1) = P at *
      omega
    · intro e he
      exact List.mem_append_left _ he
  cases hr : runLevelsF (directRelations poset) poset.elements with
  | none => rw [hr] at hrun; exact absurd hrun (by simp)
  | some st => rfl

/-! ## Claim 3: the level recurrence on acyclic covering graphs -/

theorem runFold_invariant (dr : List (String × String)) (rank : String → Nat)
    (hrank : ∀ ab ∈ dr, rank ab.1 < rank ab.2) (F : Nat) :
    ∀ (es : List String) (st0 st : LState),
      es.foldlM (fun st e =>
        if e ∈ st.visited then some st
        else (computeLevelF F dr e st).map Prod.snd) st0 = some st →
      TblInv dr st0 → (∀ x, ¬ InProg st0 x) →
      TblInv dr st ∧ (∀ x, ¬ InProg st x) ∧
        (∀ e ∈ es, e ∈ tblDom st.levels) ∧ TblExt st0.levels st.levels
  | [], st0, st, h, hInv, hProg => by
    have hst : st0 = st := Option.some.inj h
    subst hst
    exact ⟨hInv, hProg, fun e he => absurd he (List.not_mem_nil _), tblExt_refl _⟩
  | e :: rest, st0, st, h, hInv, hProg => by
    replace h : ((if e ∈ st0.visited then some st0
        else (computeLevelF F dr e st0).map Prod.snd) >>= fun s =>
          rest.foldlM (fun st e => if e ∈ st.visited then some st
            else (computeLevelF F dr e st).map Prod.snd) s) = some st := h
    by_cases hvis : e ∈ st0.visited
    · rw [if_pos hvis] at h
      obtain ⟨Inv', Prog', Dom', Ext'⟩ :=
        runFold_invariant dr rank hrank F rest st0 st h hInv hProg
      refine ⟨Inv', Prog', ?_, Ext'⟩
      intro x hx
      rcases List.mem_cons.mp hx with rfl | hx'
      · have hed : x ∈ tblDom st0.levels := by
          by_contra hnd
          exact hProg x ⟨hvis, hnd⟩
        exact tblDom_mono_of_ext Ext' hed
      · exact Dom' x hx'
    · rw [if_neg hvis] at h
      cases hcl : computeLevelF F dr e st0 with
      | none => rw [hcl] at h; exact Option.noConfusion h
      | some vs =>
        obtain ⟨v, st1⟩ := vs
        rw [hcl] at h
        have h1 : rest.foldlM (fun st e => if e ∈ st.visited then some st
            else (computeLevelF F dr e st).map Prod.snd) st1 = some st := h
        obtain ⟨Inv1, Ext1, Vis1, Prog1, Look1⟩ :=
          (levelInvariant dr rank hrank F).1 e st0 v st1 hcl hInv
            (fun x hx => absurd hx (hProg x))
        have hProg1 : ∀ x, ¬ InProg st1 x := fun x hx => hProg x ((Prog1 x).mp hx)
        obtain ⟨Inv', Prog', Dom', Ext'⟩ :=
          runFold_invariant dr rank hrank F rest st1 st h1 Inv1 hProg1
        refine ⟨Inv', Prog', ?_, tblExt_trans Ext1 Ext'⟩
        intro x hx
        rcases List.mem_cons.mp hx with rfl | hx'
        · exact tblDom_mono_of_ext Ext' (mem_dom_of_lookup _ _ _ Look1)
        · exact Dom' x hx'

theorem foldMax_spec (e : String) (tbl : List (String × Option Nat)) :
    ∀ (dr : List (String × String)) (a0 : Nat),
      (∀ ab ∈ dr, ab.2 = e → ∃ u, (lookupTbl tbl ab.1).getD none = some u) →
      ∃ V, dr.foldl (fun acc ab =>
          if ab.2 = e then optMax acc (optSucc ((lookupTbl tbl ab.1).getD none))
          else acc) (some a0) = some V ∧
        a0 ≤ V ∧
        (∀ ab ∈ dr, ab.2 = e → ∀ u, (lookupTbl tbl ab.1).getD none = some u → u + 1 ≤ V) ∧
        (V = a0 ∨ ∃ ab, ab ∈ dr ∧ ab.2 = e ∧
          ∃ u, (lookupTbl tbl ab.1).getD none = some u ∧ V = u + 1)
  | [], a0, _ =>
    ⟨a0, rfl, le_refl _, fun ab hab => absurd hab (List.not_mem_nil _), Or.inl rfl⟩
  | ab :: rest, a0, hdom => by
    rw [List.foldl_cons]
    by_cases hab : ab.2 = e
    · obtain ⟨u, hu⟩ := hdom ab (List.mem_cons_self _ _) hab
      rw [if_pos hab, hu]
      obtain ⟨V, hV, hle, hbound, hatt⟩ := foldMax_spec e tbl rest (Nat.max a0 (u + 1))
        (fun ab' h' hh => hdom ab' (List.mem_cons_of_mem _ h') hh)
      refine ⟨V, hV, le_trans (Nat.le_max_left _ _) hle, ?_, ?_⟩
      · intro ab' hab' h2 w hw
        rcases List.mem_cons.mp hab' with rfl | hab''
        · have hwu : w = u := by
            rw [hu] at hw
            exact (Option.some.inj hw).symm
          subst hwu
          exact le_trans (Nat.le_max_right a0 (w + 1)) hle
        · exact hbound ab' hab'' h2 w hw
      · rcases hatt with hV0 | ⟨ab', hab', h2, w, hw, hVw⟩
        · rcases Nat.le_total (u + 1) a0 with hle' | hle'
          · left
            rw [hV0]
            exact Nat.max_eq_left hle'
          · right
            refine ⟨ab, List.mem_cons_self _ _, hab, u, hu, ?_⟩
            rw [hV0]
            exact Nat.max_eq_right hle'
        · exact Or.inr ⟨ab', List.mem_cons_of_mem _ hab', h2, w, hw, hVw⟩
    · rw [if_neg hab]
      obtain ⟨V, hV, hle, hbound, hatt⟩ := foldMax_spec e tbl rest a0
        (fun ab' h' hh => hdom ab' (List.mem_cons_of_mem _ h') hh)
      refine ⟨V, hV, hle, ?_, ?_⟩
      · intro ab' hab' h2 w hw
        rcases List.mem_cons.mp hab' with rfl | hab''
        · exact absurd h2 hab
        · exact hbound ab' hab'' h2 w hw
      · rcases hatt with hV0 | ⟨ab', hab', h2, w, hw, hVw⟩
        · exact Or.inl hV0
        · exact Or.inr ⟨ab', List.mem_cons_of_mem _ hab', h2, w, hw, hVw⟩

theorem mem_predsOf (dr : List (String × String)) (e x : String) :
    x ∈ predsOf dr e ↔ ∃ ab, ab ∈ dr ∧ ab.2 = e ∧ ab.1 = x := by
  unfold predsOf
  rw [List.mem_filterMap]
  constructor
  · rintro ⟨ab, hab, hf⟩
    by_cases h2 : ab.2 = e
    · rw [if_pos h2] at hf
      exact ⟨ab, hab, h2, Option.some.inj hf⟩
    · rw [if_neg h2] at hf
      exact Option.noConfusion hf
  · rintro ⟨ab, hab, h2, h1⟩
    exact ⟨ab, hab, by rw [if_pos h2, h1]⟩

theorem mem_relations_of_mem_directRelations (poset : PosetData)
    {ab : String × String} (h : ab ∈ directRelations poset) : ab ∈ poset.relations :=
  List.mem_of_mem_filter
    (show ab ∈ List.filter _ poset.relations from h)

theorem dlevel_mkDiagram (elements : List String) (tbl : List (String × Option Nat))
    (edges : List Edge) (x : String) (hx : x ∈ elements) :
    dlevel ⟨elements.map fun id =>
      ⟨id, (lookupTbl tbl id).getD none, none, none⟩, edges⟩ x =
      (lookupTbl tbl x).getD none := by
  unfold dlevel
  induction elements with
  | nil => exact absurd hx (List.not_mem_nil _)
  | cons e rest ih =>
    rw [List.map_cons]
    by_cases he : e = x
    · subst he
      rw [List.find?_cons_of_pos _ (by simp)]
      rfl
    · rw [List.find?_cons_of_neg _ (by simp [he])]
      exact ih (by
        rcases List.mem_cons.mp hx with rfl | hmem
        · exact absurd rfl he
        · exact hmem)

/-- **C3.**  When the retained covering-edge graph is acyclic (here
witnessed by a strictly increasing `rank`, which exists exactly for the
acyclic finite graphs) and the poset satisfies the documented data-model
invariant, every node's level obeys the recurrence: level `0` for
elements with no incoming covering edge, and otherwise `1 +` the maximum
level of the covering predecessors (the maximum is both an upper bound
and attained); consequently `level(target) ≥ level(source) + 1` for
every output edge. -/
theorem claim3_levels (poset : PosetData) (d : DiagramData) (rank : String → Nat)
    (hd : computeHasseDiagram poset = some d)
    (hrank : ∀ ab ∈ directRelations poset, rank ab.1 < rank ab.2)
    (hwf : ∀ r ∈ poset.relations, r.1 ∈ poset.elements ∧ r.2 ∈ poset.elements) :
    (∀ nd ∈ d.nodes,
      (predsOf (directRelations poset) nd.id = [] → nd.level = some 0) ∧
      (predsOf (directRelations poset) nd.id ≠ [] →
        ∃ v, nd.level = some v ∧
          (∀ x ∈ predsOf (directRelations poset) nd.id,
            ∃ u, dlevel d x = some u ∧ u + 1 ≤ v) ∧
          (∃ x ∈ predsOf (directRelations poset) nd.id,
            ∃ u, dlevel d x = some u ∧ v = u + 1))) ∧
    (∀ ed ∈ d.edges,
      ∃ u v, dlevel d ed.source = some u ∧ dlevel d ed.target = some v ∧
        u + 1 ≤ v) := by
  rw [computeHasseDiagram_eq] at hd
  cases hrun : runLevelsF (directRelations poset) poset.elements with
  | none => rw [hrun] at hd; simp at hd
  | some st =>
    rw [hrun] at hd
    simp only [Option.map_some', Option.some.injEq] at hd
    subst hd
    obtain ⟨Inv, Prog, Dom, -⟩ :=
      runFold_invariant (directRelations poset) rank hrank
        (levelFuel (directRelations poset) poset.elements) poset.elements ⟨[], []⟩ st
        hrun
        ⟨fun x hx => absurd hx (List.not_mem_nil _),
          fun x v hv => Option.noConfusion hv,
          fun x hx => absurd hx (List.not_mem_nil _)⟩
        (fun x hx => absurd hx.1 (List.not_mem_nil _))
    have key : ∀ e ∈ poset.elements,
        ∃ V, (lookupTbl st.levels e).getD none = some V ∧
          (∀ ab ∈ directRelations poset, ab.2 = e →
            ∃ u, (lookupTbl st.levels ab.1).getD none = some u ∧ u + 1 ≤ V) ∧
          (V = 0 ∨ ∃ ab, ab ∈ directRelations poset ∧ ab.2 = e ∧
            ∃ u, (lookupTbl st.levels ab.1).getD none = some u ∧ V = u + 1) := by
      intro e he
      have hedom := Dom e he
      obtain ⟨w, hw⟩ := lookup_some_of_mem_dom st.levels e hedom
      obtain ⟨hrec, hsome⟩ := Inv.2.1 e w hw
      have hdom' : ∀ ab ∈ directRelations poset, ab.2 = e →
          ∃ u, (lookupTbl st.levels ab.1).getD none = some u := by
        intro ab hab h2
        have h1 : ab.1 ∈ tblDom st.levels := Inv.2.2 e hedom ab hab h2
        obtain ⟨w1, hw1⟩ := lookup_some_of_mem_dom st.levels ab.1 h1
        obtain ⟨-, hs1⟩ := Inv.2.1 ab.1 w1 hw1
        obtain ⟨u, hu⟩ := Option.isSome_iff_exists.mp hs1
        refine ⟨u, by rw [hw1, hu]; rfl⟩
      obtain ⟨V, hV, -, hbound, hatt⟩ :=
        foldMax_spec e st.levels (directRelations poset) 0 hdom'
      refine ⟨V, ?_, ?_, hatt⟩
      · rw [hw]
        show w = some V
        rw [hrec]
        exact hV
      · intro ab hab h2
        obtain ⟨u, hu⟩ := hdom' ab hab h2
        exact ⟨u, hu, hbound ab hab h2 u hu⟩
    constructor
    · intro nd hnd
      obtain ⟨e, he, hmk⟩ := List.mem_map.mp hnd
      subst hmk
      obtain ⟨V, hV, hbound, hatt⟩ := key e he
      constructor
      · intro hpreds
        have hnomatch : ∀ ab, ab ∈ directRelations poset → ¬ ab.2 = e := by
          intro ab hab h2
          have hmem : ab.1 ∈ predsOf (directRelations poset) e :=
            (mem_predsOf _ _ _).mpr ⟨ab, hab, h2, rfl⟩
          rw [hpreds] at hmem
          exact absurd hmem (List.not_mem_nil _)
        rcases hatt with h0 | ⟨ab, hab, h2, -⟩
        · show (lookupTbl st.levels e).getD none = some 0
          rw [hV, h0]
        · exact absurd h2 (hnomatch ab hab)
      · intro hpreds
        refine ⟨V, hV, ?_, ?_⟩
        · intro x hx
          obtain ⟨ab, hab, h2, h1⟩ := (mem_predsOf _ _ _).mp hx
          have hxE : x ∈ poset.elements :=
            h1 ▸ (hwf ab (mem_relations_of_mem_directRelations poset hab)).1
          obtain ⟨u, hu, hle⟩ := hbound ab hab h2
          refine ⟨u, ?_, hle⟩
          rw [dlevel_mkDiagram _ _ _ _ hxE, ← h1]
          exact hu
        · rcases hatt with h0 | ⟨ab, hab, h2, u, hu, hVu⟩
          · obtain ⟨x, hx⟩ := List.exists_mem_of_ne_nil _ hpreds
            obtain ⟨ab, hab, h2, h1⟩ := (mem_predsOf _ _ _).mp hx
            obtain ⟨u, -, hle⟩ := hbound ab hab h2
            omega
          · refine ⟨ab.1, (mem_predsOf _ _ _).mpr ⟨ab, hab, h2, rfl⟩, u, ?_, hVu⟩
            have hxE : ab.1 ∈ poset.elements :=
              (hwf ab (mem_relations_of_mem_directRelations poset hab)).1
            rw [dlevel_mkDiagram _ _ _ _ hxE]
            exact hu
    · intro ed hed
      obtain ⟨ab, hab, hmk⟩ := List.mem_map.mp hed
      have hsrc : ed.source = ab.1 := (congrArg Edge.source hmk).symm
      have htgt : ed.target = ab.2 := (congrArg Edge.target hmk).symm
      have habR : ab ∈ poset.relations := mem_relations_of_mem_directRelations poset hab
      have htE : ab.2 ∈ poset.elements := (hwf ab habR).2
      have hsE : ab.1 ∈ poset.elements := (hwf ab habR).1
      obtain ⟨V, hV, hbound, -⟩ := key ab.2 htE
      obtain ⟨u, hu, hle⟩ := hbound ab hab rfl
      refine ⟨u, V, ?_, ?_, hle⟩
      · rw [hsrc, dlevel_mkDiagram _ _ _ _ hsE]
        exact hu
      · rw [htgt, dlevel_mkDiagram _ _ _ _ htE]
        exact hV

/-- Witness for C3 at the chain `a < b < c` (with the identity-position
rank): the minimal element `a` gets level 0. -/
theorem claim3_levels_witness : (⟨"a", some 0, none, none⟩ : Node).level = some 0 :=
  ((claim3_levels chainPoset chainDiagram
      (fun s => if s = "a" then 0 else if s = "b" then 1 else 2) rfl
      (by decide) (by decide)).1
    ⟨"a", some 0, none, none⟩ (List.mem_cons_self _ _)).1 (by decide)

/-! ## Claim 7: duplicate tokens give equal-endpoint relations -/

/-- **C7 (failing input).**  On the duplicated token list `2,2` the
generator emits the relation `("2", "2")` twice — ordered pairs whose two
endpoints are equal as numbers — because the loop guard compares the
*indices* (`i !== j`), not the values, contradicting the code's own
comment `a < b if a divides b (and a ≠ b)` and the claim. -/
theorem claim7_duplicate_tokens :
    generateDivisibilityPoset "2,2" =
      Except.ok ⟨["2", "2"], [("2", "2"), ("2", "2")]⟩ ∧
    ("2", "2") ∈ (⟨["2", "2"], [("2", "2"), ("2", "2")]⟩ : PosetData).relations := by
  decide

/-! ## Claim 8: which tokens the divisibility generator rejects -/

/-- **C8 counterexample.**  The fractional token `"1.5"` is not a
positive integer, yet the generator accepts it (producing the element
`"1"` from the leading integer part read by `Number.parseInt`) instead of
raising a validation error. -/
theorem claim8_counterexample :
    generateDivisibilityPoset "1.5" = Except.ok ⟨["1"], []⟩ := by
  decide

theorem parseTok_error_iff (t : String) :
    (∃ e, parseTok t = Except.error e) ↔ badTokB t = true := by
  unfold parseTok badTokB
  cases h : jsParseInt t with
  | none => simp
  | some v =>
    by_cases hv : v ≤ 0 <;> simp [hv]

theorem mapM_parseTok_ok_length :
    ∀ (ts : List String) (ns : List String), ts.mapM parseTok = Except.ok ns →
      ns.length = ts.length
  | [], ns, h => by
    rw [List.mapM_nil] at h
    rw [← Except.ok.inj h]
  | t :: rest, ns, h => by
    rw [List.mapM_cons] at h
    cases hft : parseTok t with
    | error e => rw [hft] at h; exact Except.noConfusion h
    | ok b =>
      rw [hft] at h
      cases hrest : rest.mapM parseTok with
      | error e => rw [hrest] at h; exact Except.noConfusion h
      | ok bs =>
        rw [hrest] at h
        have hcons : b :: bs = ns := Except.ok.inj h
        rw [← hcons, List.length_cons, List.length_cons,
          mapM_parseTok_ok_length rest bs hrest]

theorem mapM_parseTok_error_iff :
    ∀ ts : List String,
      (∃ e, ts.mapM parseTok = Except.error e) ↔ ∃ t ∈ ts, badTokB t = true
  | [] => by
    rw [List.mapM_nil]
    constructor
    · rintro ⟨e, he⟩
      exact Except.noConfusion he
    · rintro ⟨t, ht, -⟩
      exact absurd ht (List.not_mem_nil _)
  | t :: rest => by
    rw [List.mapM_cons]
    cases hft : parseTok t with
    | error e =>
      constructor
      · intro _
        exact ⟨t, List.mem_cons_self _ _, (parseTok_error_iff t).mp ⟨e, hft⟩⟩
      · intro _
        exact ⟨e, rfl⟩
    | ok b =>
      cases hrest : rest.mapM parseTok with
      | error e' =>
        constructor
        · intro _
          obtain ⟨u, hu, hbad⟩ := (mapM_parseTok_error_iff rest).mp ⟨e', hrest⟩
          exact ⟨u, List.mem_cons_of_mem _ hu, hbad⟩
        · intro _
          exact ⟨e', rfl⟩
      | ok bs =>
        constructor
        · rintro ⟨e, he⟩
          exact Except.noConfusion he
        · rintro ⟨u, hu, hbad⟩
          rcases List.mem_cons.mp hu with rfl | hu'
          · obtain ⟨e, he⟩ := (parseTok_error_iff u).mpr hbad
            rw [he] at hft
            exact Except.noConfusion hft
          · obtain ⟨e, he⟩ := (mapM_parseTok_error_iff rest).mpr ⟨u, hu', hbad⟩
            rw [he] at hrest
            exact Except.noConfusion hrest

/-- **C8 (amended).**  `generateDivisibilityPoset` reports a validation
error, and produces no poset, exactly when the comma-separated token list
is empty or some non-empty token parses under `Number.parseInt` semantics
to `NaN` or to a non-positive value; a token with a fractional part or
trailing garbage (such as `"1.5"`) is *accepted* with the value of its
leading integer part whenever that part is positive. -/
theorem claim8_amended (s : String) :
    (∃ err, generateDivisibilityPoset s = Except.error err) ↔
      (tokensOf s = [] ∨ ∃ t ∈ tokensOf s, badTokB t = true) := by
  cases hm : (tokensOf s).mapM parseTok with
  | error e =>
    have hgen : generateDivisibilityPoset s = Except.error e := by
      unfold generateDivisibilityPoset
      rw [hm]
    constructor
    · intro _
      exact Or.inr ((mapM_parseTok_error_iff (tokensOf s)).mp ⟨e, hm⟩)
    · intro _
      exact ⟨e, hgen⟩
  | ok numbers =>
    have hnoerr : ∀ t ∈ tokensOf s, badTokB t = false := by
      intro t ht
      by_contra hbad
      obtain ⟨e, he⟩ := (mapM_parseTok_error_iff (tokensOf s)).mpr
        ⟨t, ht, by simpa using hbad⟩
      rw [he] at hm
      exact Except.noConfusion hm
    by_cases hlen : numbers.length = 0
    · have htok : tokensOf s = [] := by
        rw [← List.length_eq_zero, ← mapM_parseTok_ok_length (tokensOf s) numbers hm]
        exact hlen
      have hgen : generateDivisibilityPoset s = Except.error DivError.emptyNumbers := by
        unfold generateDivisibilityPoset
        rw [hm]
        exact if_pos hlen
      exact ⟨fun _ => Or.inl htok, fun _ => ⟨DivError.emptyNumbers, hgen⟩⟩
    · have hok : ∃ p, generateDivisibilityPoset s = Except.ok p := by
        unfold generateDivisibilityPoset
        rw [hm]
        exact ⟨_, if_neg hlen⟩
      constructor
      · rintro ⟨err, herr⟩
        obtain ⟨p, hp⟩ := hok
        rw [hp] at herr
        exact Except.noConfusion herr
      · rintro (htok | ⟨t, ht, hbad⟩)
        · have : numbers.length = 0 := by
            rw [mapM_parseTok_ok_length (tokensOf s) numbers hm, htok]
            rfl
          exact absurd this hlen
        · rw [hnoerr t ht] at hbad
          exact Bool.noConfusion hbad

/-- Witness for C8 (amended): `"0"` is rejected. -/
theorem claim8_amended_witness :
    tokensOf "0" = [] ∨ ∃ t ∈ tokensOf "0", badTokB t = true :=
  (claim8_amended "0").mp ⟨DivError.invalidNumber "0", by decide⟩

/-! ## C9: the error taxonomy of `parseInput` -/

theorem lineOkB_blank (elems : List String) (line : String)
    (ht : (jsTrim line).length = 0) : lineOkB elems line = true := by
  unfold lineOkB
  rw [if_pos ht]

theorem lineOkB_nomatch (elems : List String) (line : String)
    (ht : ¬(jsTrim line).length = 0) (hp : relPairOf (jsTrim line) = none) :
    lineOkB elems line = false := by
  unfold lineOkB
  rw [if_neg ht, hp]

theorem lineOkB_pair (elems : List String) (line a b : String)
    (ht : ¬(jsTrim line).length = 0) (hp : relPairOf (jsTrim line) = some (a, b)) :
    lineOkB elems line = (decide (jsTrim a ∈ elems) && decide (jsTrim b ∈ elems)) := by
  unfold lineOkB
  rw [if_neg ht, hp]

theorem parseRelLines_blank (elems : List String) (line : String) (rest : List String)
    (ht : (jsTrim line).length = 0) :
    parseRelLines elems (line :: rest) = parseRelLines elems rest := by
  simp only [parseRelLines]
  rw [if_pos ht]

theorem parseRelLines_lt (elems : List String) (line : String) (rest : List String)
    (a b : String) (ht : ¬(jsTrim line).length = 0)
    (hm : lazyMatch '<' (jsTrim line) = some (a, b)) :
    parseRelLines elems (line :: rest) =
      (if jsTrim a ∈ elems ∧ jsTrim b ∈ elems then
        (parseRelLines elems rest).map fun rs => (jsTrim a, jsTrim b) :: rs
      else Except.error (ParseError.unknownElement (jsTrim line))) := by
  simp only [parseRelLines]
  rw [if_neg ht, hm]

theorem parseRelLines_comma (elems : List String) (line : String) (rest : List String)
    (a b : String) (ht : ¬(jsTrim line).length = 0)
    (hm1 : lazyMatch '<' (jsTrim line) = none)
    (hm2 : lazyMatch ',' (jsTrim line) = some (a, b)) :
    parseRelLines elems (line :: rest) =
      (if jsTrim a ∈ elems ∧ jsTrim b ∈ elems then
        (parseRelLines elems rest).map fun rs => (jsTrim a, jsTrim b) :: rs
      else Except.error (ParseError.unknownElement (jsTrim line))) := by
  simp only [parseRelLines]
  rw [if_neg ht, hm1, hm2]

theorem parseRelLines_nomatch (elems : List String) (line : String) (rest : List String)
    (ht : ¬(jsTrim line).length = 0)
    (hm1 : lazyMatch '<' (jsTrim line) = none)
    (hm2 : lazyMatch ',' (jsTrim line) = none) :
    parseRelLines elems (line :: rest) =
      Except.error (ParseError.invalidFormat (jsTrim line)) := by
  simp only [parseRelLines]
  rw [if_neg ht, hm1, hm2]

theorem relPairOf_lt (t a b : String) (hm : lazyMatch '<' t = some (a, b)) :
    relPairOf t = some (a, b) := by
  unfold relPairOf
  rw [hm]

theorem relPairOf_no_lt (t : String) (hm : lazyMatch '<' t = none) :
    relPairOf t = lazyMatch ',' t := by
  unfold relPairOf
  rw [hm]

/-- Case-split companion: the one-line reduction of `parseRelLines` on a
non-blank line whose trimmed text parses to the pair `(a, b)`. -/
theorem parseRelLines_pair (elems : List String) (line : String) (rest : List String)
    (a b : String) (ht : ¬(jsTrim line).length = 0)
    (hp : relPairOf (jsTrim line) = some (a, b)) :
    parseRelLines elems (line :: rest) =
      (if jsTrim a ∈ elems ∧ jsTrim b ∈ elems then
        (parseRelLines elems rest).map fun rs => (jsTrim a, jsTrim b) :: rs
      else Except.error (ParseError.unknownElement (jsTrim line))) := by
  cases hx : lazyMatch '<' (jsTrim line) with
  | some ab =>
    have h1 : some ab = some (a, b) := by rw [← relPairOf_lt (jsTrim line) ab.1 ab.2 hx, hp]
    have h2 : ab = (a, b) := Option.some.inj h1
    exact parseRelLines_lt elems line rest a b ht (by rw [hx, h2])
  | none =>
    have hm2 : lazyMatch ',' (jsTrim line) = some (a, b) := by
      rw [← relPairOf_no_lt (jsTrim line) hx, hp]
    exact parseRelLines_comma elems line rest a b ht hx hm2

/-- Case-split companion: a non-blank line with no pattern match. -/
theorem parseRelLines_fail (elems : List String) (line : String) (rest : List String)
    (ht : ¬(jsTrim line).length = 0)
    (hp : relPairOf (jsTrim line) = none) :
    parseRelLines elems (line :: rest) =
      Except.error (ParseError.invalidFormat (jsTrim line)) := by
  cases hx : lazyMatch '<' (jsTrim line) with
  | some ab =>
    have h1 : relPairOf (jsTrim line) = some ab := relPairOf_lt (jsTrim line) ab.1 ab.2 (by rw [hx])
    rw [hp] at h1
    exact Option.noConfusion h1
  | none =>
    have hm2 : lazyMatch ',' (jsTrim line) = none := by
      rw [← relPairOf_no_lt (jsTrim line) hx, hp]
    exact parseRelLines_nomatch elems line rest ht hx hm2

theorem parseRelLines_ok_iff (elems : List String) (lines : List String) :
    (∃ rs, parseRelLines elems lines = Except.ok rs) ↔
      ∀ l ∈ lines, lineOkB elems l = true := by
  induction lines with
  | nil =>
    constructor
    · intro _ l hl
      exact absurd hl (List.not_mem_nil l)
    · intro _
      exact ⟨[], rfl⟩
  | cons line rest ih =>
    by_cases ht : (jsTrim line).length = 0
    · rw [parseRelLines_blank elems line rest ht]
      constructor
      · intro h l hl
        rcases List.mem_cons.mp hl with h1 | h2
        · rw [h1]
          exact lineOkB_blank elems line ht
        · exact ih.mp h l h2
      · intro h
        exact ih.mpr fun l hl => h l (List.mem_cons_of_mem line hl)
    · cases hp : relPairOf (jsTrim line) with
      | none =>
        rw [parseRelLines_fail elems line rest ht hp]
        constructor
        · rintro ⟨rs, hrs⟩
          exact Except.noConfusion hrs
        · intro h
          exfalso
          have hok := h line (List.mem_cons_self line rest)
          rw [lineOkB_nomatch elems line ht hp] at hok
          exact Bool.noConfusion hok
      | some ab =>
        obtain ⟨a, b⟩ := ab
        rw [parseRelLines_pair elems line rest a b ht hp]
        by_cases hmem : jsTrim a ∈ elems ∧ jsTrim b ∈ elems
        · rw [if_pos hmem]
          constructor
          · rintro ⟨rs, hrs⟩ l hl
            rcases List.mem_cons.mp hl with h1 | h2
            · rw [h1, lineOkB_pair elems line a b ht hp]
              simp [hmem.1, hmem.2]
            · have hex : ∃ rs', parseRelLines elems rest = Except.ok rs' := by
                cases hr : parseRelLines elems rest with
                | ok rs' => exact ⟨rs', rfl⟩
                | error e =>
                  rw [hr] at hrs
                  exact Except.noConfusion hrs
              exact ih.mp hex l h2
          · intro h
            obtain ⟨rs', hrs'⟩ := ih.mpr fun l hl => h l (List.mem_cons_of_mem line hl)
            exact ⟨(jsTrim a, jsTrim b) :: rs', by rw [hrs']; rfl⟩
        · rw [if_neg hmem]
          constructor
          · rintro ⟨rs, hrs⟩
            exact Except.noConfusion hrs
          · intro h
            exfalso
            have hok := h line (List.mem_cons_self line rest)
            rw [lineOkB_pair elems line a b ht hp] at hok
            simp only [Bool.and_eq_true, decide_eq_true_eq] at hok
            exact hmem hok

/-- Any error `parseRelLines` returns is traceable to a non-blank line
of the input: a format error quoting the trimmed line when no pattern
matched, or an unknown-element error quoting it when a pattern matched
but an endpoint is undeclared.  (In particular the empty-input error
never arises here.) -/
theorem parseRelLines_error_mem (elems : List String) (lines : List String)
    (err : ParseError) (h : parseRelLines elems lines = Except.error err) :
    ∃ l ∈ lines, ¬(jsTrim l).length = 0 ∧
      ((err = ParseError.invalidFormat (jsTrim l) ∧ relPairOf (jsTrim l) = none) ∨
       (err = ParseError.unknownElement (jsTrim l) ∧
         ∃ a b, relPairOf (jsTrim l) = some (a, b) ∧
           ¬(jsTrim a ∈ elems ∧ jsTrim b ∈ elems))) := by
  induction lines with
  | nil => exact Except.noConfusion h
  | cons line rest ih =>
    by_cases ht : (jsTrim line).length = 0
    · rw [parseRelLines_blank elems line rest ht] at h
      obtain ⟨l, hl, hrest⟩ := ih h
      exact ⟨l, List.mem_cons_of_mem line hl, hrest⟩
    · cases hp : relPairOf (jsTrim line) with
      | none =>
        rw [parseRelLines_fail elems line rest ht hp] at h
        have heq : err = ParseError.invalidFormat (jsTrim line) := (Except.error.inj h).symm
        exact ⟨line, List.mem_cons_self line rest, ht, Or.inl ⟨heq, hp⟩⟩
      | some ab =>
        obtain ⟨a, b⟩ := ab
        rw [parseRelLines_pair elems line rest a b ht hp] at h
        by_cases hmem : jsTrim a ∈ elems ∧ jsTrim b ∈ elems
        · rw [if_pos hmem] at h
          cases hr : parseRelLines elems rest with
          | ok rs =>
            rw [hr] at h
            exact Except.noConfusion h
          | error e =>
            rw [hr] at h
            have h' : Except.error (α := List (String × String)) e = Except.error err := h
            have he : e = err := Except.error.inj h'
            obtain ⟨l, hl, hrest⟩ := ih (by rw [hr, he])
            exact ⟨l, List.mem_cons_of_mem line hl, hrest⟩
        · rw [if_neg hmem] at h
          have heq : err = ParseError.unknownElement (jsTrim line) := (Except.error.inj h).symm
          exact ⟨line, List.mem_cons_self line rest, ht,
            Or.inr ⟨heq, a, b, hp, hmem⟩⟩

theorem parseInput_emptyCase (elements relations : String)
    (h : (tokensOf elements).length = 0) :
    parseInput elements relations = Except.error ParseError.emptyInput := by
  simp only [parseInput]
  rw [if_pos h]

theorem parseInput_mainCase (elements relations : String)
    (h : ¬(tokensOf elements).length = 0) :
    parseInput elements relations =
      (parseRelLines (tokensOf elements) (jsSplit '\n' relations)).map
        fun rs => { elements := tokensOf elements, relations := rs } := by
  simp only [parseInput]
  rw [if_neg h]

/-- C9: `parseInput` fails exactly on the spec's error cases: it
succeeds iff the element field has a non-empty token and every relation
line is blank or parses to a pair of declared elements; the empty-input
error is returned iff the element field has no tokens; a format error
always quotes a non-blank line matching neither pattern; an
unknown-element error always quotes a non-blank line whose parsed pair
has an undeclared endpoint; and concretely
`parseInput "" "" = emptyInput` and
`parseInput "a,b" "a < c" = unknownElement "a < c"`. -/
theorem claim9_parse_errors (elements relations : String) :
    ((∃ p, parseInput elements relations = Except.ok p) ↔
      (¬tokensOf elements = [] ∧
        ∀ l ∈ jsSplit '\n' relations, lineOkB (tokensOf elements) l = true)) ∧
    (parseInput elements relations = Except.error ParseError.emptyInput ↔
      tokensOf elements = []) ∧
    (∀ t, parseInput elements relations = Except.error (ParseError.invalidFormat t) →
      ∃ l ∈ jsSplit '\n' relations, jsTrim l = t ∧ ¬t.length = 0 ∧ relPairOf t = none) ∧
    (∀ t, parseInput elements relations = Except.error (ParseError.unknownElement t) →
      ∃ l ∈ jsSplit '\n' relations, jsTrim l = t ∧ ¬t.length = 0 ∧
        ∃ a b, relPairOf t = some (a, b) ∧
          ¬(jsTrim a ∈ tokensOf elements ∧ jsTrim b ∈ tokensOf elements)) ∧
    parseInput "" "" = Except.error ParseError.emptyInput ∧
    parseInput "a,b" "a < c" = Except.error (ParseError.unknownElement "a < c") := by
  refine ⟨?_, ?_, ?_, ?_, by decide, by decide⟩
  · by_cases he : (tokensOf elements).length = 0
    · constructor
      · rintro ⟨p, hp⟩
        rw [parseInput_emptyCase elements relations he] at hp
        exact Except.noConfusion hp
      · rintro ⟨hne, _⟩
        exact absurd (List.length_eq_zero.mp he) hne
    · rw [parseInput_mainCase elements relations he]
      constructor
      · rintro ⟨p, hp⟩
        refine ⟨fun hc => he (by rw [hc]; rfl), ?_⟩
        have hex : ∃ rs, parseRelLines (tokensOf elements) (jsSplit '\n' relations)
            = Except.ok rs := by
          cases hr : parseRelLines (tokensOf elements) (jsSplit '\n' relations) with
          | ok rs => exact ⟨rs, rfl⟩
          | error e =>
            rw [hr] at hp
            exact Except.noConfusion hp
        exact (parseRelLines_ok_iff (tokensOf elements) (jsSplit '\n' relations)).mp hex
      · rintro ⟨_, hall⟩
        obtain ⟨rs, hrs⟩ :=
          (parseRelLines_ok_iff (tokensOf elements) (jsSplit '\n' relations)).mpr hall
        exact ⟨_, by rw [hrs]; rfl⟩
  · constructor
    · intro h
      by_contra hne
      have he : ¬(tokensOf elements).length = 0 := fun hc => hne (List.length_eq_zero.mp hc)
      rw [parseInput_mainCase elements relations he] at h
      cases hr : parseRelLines (tokensOf elements) (jsSplit '\n' relations) with
      | ok rs =>
        rw [hr] at h
        exact Except.noConfusion h
      | error e =>
        rw [hr] at h
        have h' : Except.error (α := PosetData) e = Except.error ParseError.emptyInput := h
        have he' : e = ParseError.emptyInput := Except.error.inj h'
        obtain ⟨l, _, _, hcase⟩ :=
          parseRelLines_error_mem (tokensOf elements) (jsSplit '\n' relations) e hr
        rcases hcase with ⟨heq, _⟩ | ⟨heq, _⟩ <;>
          · rw [he'] at heq
            exact ParseError.noConfusion heq
    · intro h
      exact parseInput_emptyCase elements relations (by rw [h]; rfl)
  · intro t h
    by_cases he : (tokensOf elements).length = 0
    · rw [parseInput_emptyCase elements relations he] at h
      exact ParseError.noConfusion (Except.error.inj h)
    · rw [parseInput_mainCase elements relations he] at h
      cases hr : parseRelLines (tokensOf elements) (jsSplit '\n' relations) with
      | ok rs =>
        rw [hr] at h
        exact Except.noConfusion h
      | error e =>
        rw [hr] at h
        have h' : Except.error (α := PosetData) e
            = Except.error (ParseError.invalidFormat t) := h
        have he' : e = ParseError.invalidFormat t := Except.error.inj h'
        obtain ⟨l, hl, hlt, hcase⟩ :=
          parseRelLines_error_mem (tokensOf elements) (jsSplit '\n' relations) e hr
        rcases hcase with ⟨heq, hnone⟩ | ⟨heq, _⟩
        · rw [he'] at heq
          have hteq : t = jsTrim l := ParseError.invalidFormat.inj heq
          subst hteq
          exact ⟨l, hl, rfl, hlt, hnone⟩
        · rw [he'] at heq
          exact ParseError.noConfusion heq
  · intro t h
    by_cases he : (tokensOf elements).length = 0
    · rw [parseInput_emptyCase elements relations he] at h
      exact ParseError.noConfusion (Except.error.inj h)
    · rw [parseInput_mainCase elements relations he] at h
      cases hr : parseRelLines (tokensOf elements) (jsSplit '\n' relations) with
      | ok rs =>
        rw [hr] at h
        exact Except.noConfusion h
      | error e =>
        rw [hr] at h
        have h' : Except.error (α := PosetData) e
            = Except.error (ParseError.unknownElement t) := h
        have he' : e = ParseError.unknownElement t := Except.error.inj h'
        obtain ⟨l, hl, hlt, hcase⟩ :=
          parseRelLines_error_mem (tokensOf elements) (jsSplit '\n' relations) e hr
        rcases hcase with ⟨heq, _⟩ | ⟨heq, hab⟩
        · rw [he'] at heq
          exact ParseError.noConfusion heq
        · rw [he'] at heq
          have hteq : t = jsTrim l := ParseError.unknownElement.inj heq
          subst hteq
          exact ⟨l, hl, rfl, hlt, hab⟩

/-- Witness for C9: the two concrete error examples, extracted from the
general theorem at its own inputs. -/
theorem claim9_parse_errors_witness :
    parseInput "" "" = Except.error ParseError.emptyInput ∧
    parseInput "a,b" "a < c" = Except.error (ParseError.unknownElement "a < c") :=
  ⟨(claim9_parse_errors "" "").2.2.2.2.1, (claim9_parse_errors "a,b" "a < c").2.2.2.2.2⟩

/-! ## C5: the layout formulas -/

theorem updateNode_cons (n : Node) (rest : List Node) (nid : String) (px py : Real) :
    updateNode (n :: rest) nid px py =
      (if n.id = nid then { n with x := some px, y := some py } :: rest
      else n :: updateNode rest nid px py) := rfl

theorem updateNode_eq_map (l : List Node) (nid : String) (px py : Real)
    (h : (l.map Node.id).Nodup) :
    updateNode l nid px py =
      l.map fun m => if m.id = nid then { m with x := some px, y := some py } else m := by
  induction l with
  | nil => rfl
  | cons n rest ih =>
    rw [updateNode_cons, List.map_cons]
    by_cases hn : n.id = nid
    · rw [if_pos hn, if_pos hn]
      congr 1
      have hall : ∀ m ∈ rest,
          (if m.id = nid then { m with x := some px, y := some py } else m) = m := by
        intro m hm
        rw [if_neg]
        intro hc
        have hmem : n.id ∈ rest.map Node.id := by
          rw [hn, ← hc]
          exact List.mem_map_of_mem Node.id hm
        exact (List.nodup_cons.mp h).1 hmem
      rw [List.map_congr_left hall]
      simp
    · rw [if_neg hn, if_neg hn]
      congr 1
      exact ih (List.Nodup.of_cons h)

theorem idxOf?_cons (nid : String) (n : Node) (l : List Node) :
    idxOf? nid (n :: l) =
      (if n.id = nid then some 0 else (idxOf? nid l).map (· + 1)) := rfl

theorem idxOf?_eq_none_iff (nid : String) (l : List Node) :
    idxOf? nid l = none ↔ ∀ x ∈ l, ¬x.id = nid := by
  induction l with
  | nil => simp [idxOf?]
  | cons n rest ih =>
    rw [idxOf?_cons]
    by_cases h : n.id = nid
    · simp [h]
    · simp [h, ih]

theorem idxOf?_isSome_of_mem (nid : String) (l : List Node) (m : Node)
    (hm : m ∈ l) (hid : m.id = nid) : ∃ k, idxOf? nid l = some k := by
  induction l with
  | nil => cases hm
  | cons n rest ih =>
    rw [idxOf?_cons]
    by_cases h : n.id = nid
    · exact ⟨0, by rw [if_pos h]⟩
    · rcases List.mem_cons.mp hm with h1 | h2
      · exact absurd (h1 ▸ hid) h
      · obtain ⟨k, hk⟩ := ih h2
        exact ⟨k + 1, by rw [if_neg h, hk]; rfl⟩

theorem updateNode_map_id (l : List Node) (nid : String) (px py : Real)
    (h : (l.map Node.id).Nodup) :
    (updateNode l nid px py).map Node.id = l.map Node.id := by
  rw [updateNode_eq_map l nid px py h, List.map_map]
  apply List.map_congr_left
  intro m _
  by_cases hm : m.id = nid <;> simp [hm]

theorem placeGen_cons (fx fy : Nat → Real) (i : Nat) (n : Node) (rest acc : List Node) :
    placeGen fx fy i (n :: rest) acc =
      placeGen fx fy (i + 1) rest (updateNode acc n.id (fx i) (fy i)) := rfl

/-- Master placement lemma: iterating index-determined coordinate
patches over a duplicate-free `todo` list maps each accumulator node
through the patch for the first `todo` position carrying its id (if
any). -/
theorem placeGen_spec (fx fy : Nat → Real) (todo : List Node)
    (htodo : (todo.map Node.id).Nodup) :
    ∀ (acc : List Node), (acc.map Node.id).Nodup → ∀ (i : Nat),
      placeGen fx fy i todo acc =
        acc.map fun m =>
          match idxOf? m.id todo with
          | some k => { m with x := some (fx (i + k)), y := some (fy (i + k)) }
          | none => m := by
  induction todo with
  | nil =>
    intro acc _ i
    simp [placeGen, idxOf?]
  | cons n rest ih =>
    intro acc hacc i
    rw [placeGen_cons]
    have hupd := updateNode_eq_map acc n.id (fx i) (fy i) hacc
    have hids := updateNode_map_id acc n.id (fx i) (fy i) hacc
    rw [ih (List.Nodup.of_cons htodo) (updateNode acc n.id (fx i) (fy i))
      (by rw [hids]; exact hacc) (i + 1), hupd, List.map_map]
    apply List.map_congr_left
    intro m hm
    by_cases h : m.id = n.id
    · have hnone : idxOf? m.id rest = none := by
        rw [idxOf?_eq_none_iff]
        intro x hx hxid
        have hmem : n.id ∈ rest.map Node.id := by
          rw [← h, ← hxid]
          exact List.mem_map_of_mem Node.id hx
        exact (List.nodup_cons.mp htodo).1 hmem
      simp only [Function.comp_apply, if_pos h]
      rw [show idxOf? ({ m with x := some (fx i), y := some (fy i) } : Node).id rest = none
        from hnone]
      rw [idxOf?_cons, if_pos h.symm]
      simp only [Nat.add_zero]
    · simp only [Function.comp_apply, if_neg h]
      rw [idxOf?_cons, if_neg fun hc => h hc.symm]
      cases hk : idxOf? m.id rest with
      | none => rfl
      | some k =>
        simp only [Option.map_some']
        rw [Nat.add_assoc, Nat.add_comm 1 k]

theorem placeLevel_eq_placeGen (H : Real) (level : Nat) (startX : Real) :
    ∀ (todo : List Node) (i : Nat) (acc : List Node),
      placeLevel H level startX i todo acc =
        placeGen (fun k => startX + (k : Real) * 100) (fun _ => (level : Real) * H)
          i todo acc := by
  intro todo
  induction todo with
  | nil => intro i acc; rfl
  | cons n rest ih =>
    intro i acc
    exact ih (i + 1) (updateNode acc n.id (startX + (i : Real) * 100) ((level : Real) * H))

theorem placeCirc_eq_placeGen (radius angleStep : Real) :
    ∀ (todo : List Node) (i : Nat) (acc : List Node),
      placeCirc radius angleStep i todo acc =
        placeGen (fun k => radius * Real.cos ((k : Real) * angleStep))
          (fun k => radius * Real.sin ((k : Real) * angleStep)) i todo acc := by
  intro todo
  induction todo with
  | nil => intro i acc; rfl
  | cons n rest ih =>
    intro i acc
    exact ih (i + 1) (updateNode acc n.id (radius * Real.cos ((i : Real) * angleStep))
      (radius * Real.sin ((i : Real) * angleStep)))

theorem patchHier_id (H : Real) (nodes : List Node) (level : Nat) (m : Node) :
    (patchHier H nodes level m).id = m.id := by
  unfold patchHier
  cases idxOf? m.id (nodes.filter fun n => n.level == some level) <;> rfl

theorem nodup_filter_ids (nodes : List Node) (h : (nodes.map Node.id).Nodup)
    (p : Node → Bool) : ((nodes.filter p).map Node.id).Nodup := by
  have hsub : List.Sublist ((nodes.filter p).map Node.id) (nodes.map Node.id) :=
    (List.filter_sublist nodes).map Node.id
  exact List.Nodup.sublist hsub h

theorem foldl_place_spec (H : Real) (nodes : List Node)
    (hn : (nodes.map Node.id).Nodup) :
    ∀ (lvls : List Nat) (acc : List Node), (acc.map Node.id).Nodup →
      lvls.foldl (fun acc level =>
        placeLevel H level
          (-((nodes.filter fun n => n.level == some level).length * 100 : Real) / 2 + 50) 0
          (nodes.filter fun n => n.level == some level) acc) acc =
      acc.map (applyHier H nodes lvls) := by
  intro lvls
  induction lvls with
  | nil =>
    intro acc _
    exact ((List.map_congr_left (fun m _ => rfl)).trans (List.map_id' acc)).symm
  | cons l ls ih =>
    intro acc hacc
    rw [List.foldl_cons]
    have htodo : ((nodes.filter fun n => n.level == some l).map Node.id).Nodup :=
      nodup_filter_ids nodes hn _
    have hstep : placeLevel H l
        (-((nodes.filter fun n => n.level == some l).length * 100 : Real) / 2 + 50) 0
        (nodes.filter fun n => n.level == some l) acc
        = acc.map (patchHier H nodes l) := by
      rw [placeLevel_eq_placeGen, placeGen_spec _ _ _ htodo acc hacc 0]
      apply List.map_congr_left
      intro m hm
      unfold patchHier
      cases hk : idxOf? m.id (nodes.filter fun n => n.level == some l) with
      | none => rfl
      | some k => simp only [Nat.zero_add]
    rw [hstep]
    have hacc' : ((acc.map (patchHier H nodes l)).map Node.id).Nodup := by
      rw [List.map_map]
      have hcomp : ∀ m ∈ acc, (Node.id ∘ patchHier H nodes l) m = Node.id m :=
        fun m _ => patchHier_id H nodes l m
      rw [List.map_congr_left hcomp]
      exact hacc
    rw [ih (acc.map (patchHier H nodes l)) hacc', List.map_map]
    apply List.map_congr_left
    intro m _
    rfl

theorem idxOf?_filter_none (nodes : List Node) (hn : (nodes.map Node.id).Nodup)
    (m : Node) (hm : m ∈ nodes) (l : Nat) (hl : ¬m.level = some l) (nid : String)
    (hid : nid = m.id) :
    idxOf? nid (nodes.filter fun n => n.level == some l) = none := by
  rw [idxOf?_eq_none_iff]
  intro x hx hxid
  have hxf := List.mem_filter.mp hx
  have hxl : x.level = some l := by simpa using hxf.2
  have hxm : x = m := List.inj_on_of_nodup_map hn hxf.1 hm (by rw [hxid, hid])
  rw [hxm] at hxl
  exact hl hxl

theorem applyHier_skip (H : Real) (nodes : List Node) (hn : (nodes.map Node.id).Nodup)
    (m : Node) (hm : m ∈ nodes) (v : Nat) (hv : m.level = some v) :
    ∀ (ls : List Nat), v ∉ ls → ∀ (m' : Node), m'.id = m.id →
      applyHier H nodes ls m' = m' := by
  intro ls
  induction ls with
  | nil => intro _ m' _; rfl
  | cons l tail ih =>
    intro hnotin m' hid
    have hl : ¬m.level = some l := by
      intro hc
      rw [hv] at hc
      rw [Option.some.inj hc] at hnotin
      exact hnotin (List.mem_cons_self l tail)
    have hskip : patchHier H nodes l m' = m' := by
      unfold patchHier
      rw [idxOf?_filter_none nodes hn m hm l hl m'.id hid]
    show applyHier H nodes tail (patchHier H nodes l m') = m'
    rw [hskip]
    exact ih (fun hc => hnotin (List.mem_cons_of_mem l hc)) m' hid

theorem applyHier_eval (H : Real) (nodes : List Node) (hn : (nodes.map Node.id).Nodup)
    (m : Node) (hm : m ∈ nodes) (v : Nat) (hv : m.level = some v) :
    ∀ (ls : List Nat), ls.Nodup →
      applyHier H nodes ls m = (if v ∈ ls then patchHier H nodes v m else m) := by
  intro ls
  induction ls with
  | nil =>
    intro _
    rw [if_neg (List.not_mem_nil v)]
    rfl
  | cons l tail ih =>
    intro hnd
    show applyHier H nodes tail (patchHier H nodes l m) = _
    by_cases hvl : v = l
    · subst hvl
      rw [if_pos (List.mem_cons_self v tail)]
      exact applyHier_skip H nodes hn m hm v hv tail (List.nodup_cons.mp hnd).1
        (patchHier H nodes v m) (patchHier_id H nodes v m)
    · have hl : ¬m.level = some l := by
        intro hc
        rw [hv] at hc
        exact hvl (Option.some.inj hc)
      have hskip : patchHier H nodes l m = m := by
        unfold patchHier
        rw [idxOf?_filter_none nodes hn m hm l hl m.id rfl]
      rw [hskip, ih (List.Nodup.of_cons hnd)]
      by_cases hvt : v ∈ tail
      · rw [if_pos hvt, if_pos (List.mem_cons_of_mem l hvt)]
      · rw [if_neg hvt, if_neg (fun hc => (List.mem_cons.mp hc).elim hvl hvt)]

theorem le_foldl_natMax_init (l : List Nat) : ∀ a : Nat, a ≤ l.foldl Nat.max a := by
  induction l with
  | nil => intro a; exact Nat.le_refl a
  | cons x xs ih => intro a; exact Nat.le_trans (Nat.le_max_left a x) (ih (Nat.max a x))

theorem mem_le_foldl_natMax (l : List Nat) : ∀ (a x : Nat), x ∈ l → x ≤ l.foldl Nat.max a := by
  induction l with
  | nil => intro a x hx; cases hx
  | cons y ys ih =>
    intro a x hx
    rcases List.mem_cons.mp hx with h1 | h2
    · subst h1
      exact Nat.le_trans (Nat.le_max_right a x) (le_foldl_natMax_init ys (Nat.max a x))
    · exact ih (Nat.max a y) x h2

theorem maxLevelOpt_eq (nodes : List Node) (hne : nodes.isEmpty = false)
    (hall : nodes.all (fun n => n.level.isSome) = true) :
    maxLevelOpt nodes = some ((nodes.filterMap fun n => n.level).foldl Nat.max 0) := by
  unfold maxLevelOpt
  rw [if_neg (fun hc => by rw [hne] at hc; exact Bool.noConfusion hc), if_pos hall]

theorem level_le_maxLevel (nodes : List Node) (m : Node) (hm : m ∈ nodes) (v : Nat)
    (hv : m.level = some v) :
    v ≤ (nodes.filterMap fun n => n.level).foldl Nat.max 0 := by
  apply mem_le_foldl_natMax
  rw [List.mem_filterMap]
  exact ⟨m, hm, hv⟩

/-- C5: on a diagram with pairwise distinct node ids and a (integer)
level on every node — the shape `computeHasseDiagram` produces —
`computeLayout` realises exactly the spec's coordinate formulas:
hierarchically each node of a `g`-node level at in-level index `i` gets
`x = -50·g + 50 + 100·i`, `y = level · levelHeight`; circularly the node
at original index `i` of `N` nodes gets
`x = r·cos(i·2π/N)`, `y = r·sin(i·2π/N)` with `r = max(20·N, 150)`. -/
theorem claim5_layout (H : Real) (d : DiagramData)
    (hnodup : (d.nodes.map Node.id).Nodup)
    (hlv : ∀ n ∈ d.nodes, n.level.isSome = true) :
    computeLayout "hierarchical" H d =
      { nodes := d.nodes.map (hierSpecNode H d.nodes), edges := d.edges } ∧
    computeLayout "circular" H d =
      { nodes := d.nodes.map (circSpecNode d.nodes), edges := d.edges } := by
  constructor
  · have h1 : computeLayout "hierarchical" H d =
        { nodes := layoutHier H d.nodes, edges := d.edges } := by
      unfold computeLayout
      rw [if_pos rfl]
    rw [h1]
    by_cases hnil : d.nodes = []
    · rw [hnil]
      rfl
    · have hempty : d.nodes.isEmpty = false := by
        cases hnn : d.nodes with
        | nil => exact absurd hnn hnil
        | cons a b => rfl
      have hall : d.nodes.all (fun n => n.level.isSome) = true := by
        rw [List.all_eq_true]
        exact hlv
      obtain ⟨L, hml, hLdef⟩ : ∃ L, maxLevelOpt d.nodes = some L ∧
          L = (d.nodes.filterMap fun n => n.level).foldl Nat.max 0 :=
        ⟨_, maxLevelOpt_eq d.nodes hempty hall, rfl⟩
      have h2 : layoutHier H d.nodes =
          (List.range (L + 1)).foldl (fun acc level =>
            placeLevel H level
              (-((d.nodes.filter fun n => n.level == some level).length * 100 : Real) / 2 + 50) 0
              (d.nodes.filter fun n => n.level == some level) acc) d.nodes := by
        unfold layoutHier
        rw [hml]
      rw [h2, foldl_place_spec H d.nodes hnodup (List.range (L + 1)) d.nodes hnodup]
      congr 1
      apply List.map_congr_left
      intro m hm
      obtain ⟨v, hv⟩ := Option.isSome_iff_exists.mp (hlv m hm)
      have hvL : v ≤ L := hLdef ▸ level_le_maxLevel d.nodes m hm v hv
      rw [applyHier_eval H d.nodes hnodup m hm v hv (List.range (L + 1))
        (List.nodup_range (L + 1)),
        if_pos (List.mem_range.mpr (Nat.lt_succ_of_le hvL))]
      unfold patchHier hierSpecNode
      rw [hv]
      obtain ⟨k, hk⟩ := idxOf?_isSome_of_mem m.id (d.nodes.filter fun n => n.level == some v) m
        (List.mem_filter.mpr ⟨hm, by rw [hv]; exact beq_self_eq_true (some v)⟩) rfl
      rw [hk]
      simp only [Option.getD_some]
      congr 2
      rw [hk]
      simp only [Option.getD_some]
      ring
  · have h1 : computeLayout "circular" H d =
        { nodes := layoutCirc d.nodes, edges := d.edges } := by
      unfold computeLayout
      rw [if_neg (by decide), if_pos rfl]
    rw [h1]
    congr 1
    unfold layoutCirc
    rw [placeCirc_eq_placeGen, placeGen_spec _ _ d.nodes hnodup d.nodes hnodup 0]
    apply List.map_congr_left
    intro m hm
    obtain ⟨k, hk⟩ := idxOf?_isSome_of_mem m.id d.nodes m hm rfl
    rw [hk]
    unfold circSpecNode
    rw [hk]
    simp only [Option.getD_some, Nat.zero_add]

/-- Witness for C5: the layout formulas hold at the concrete four-node
single-level diagram with `levelHeight = 100`. -/
theorem claim5_layout_witness :
    computeLayout "hierarchical" 100 antichain4 =
      { nodes := antichain4.nodes.map (hierSpecNode 100 antichain4.nodes)
        edges := antichain4.edges } ∧
    computeLayout "circular" 100 antichain4 =
      { nodes := antichain4.nodes.map (circSpecNode antichain4.nodes)
        edges := antichain4.edges } :=
  claim5_layout 100 antichain4 (by decide) (by decide)
